import Mathlib

/-!
# Verification of the rockscopy in-memory write path

Shallow embedding of the repository's C++ sources in Lean 4, with theorems
settling the specification claims about them.

Conventions used throughout:
* machine bytes are `Nat` values; every read through an `unsigned char`
  lvalue is modelled with `% 256`;
* `uint32_t` / `uint64_t` arithmetic is `Nat` arithmetic followed by
  `% 2 ^ 32` / `% 2 ^ 64` where the C computation can exceed the type;
* a C `Slice` is a `List Nat` of its bytes;
* fallible decoders return `Option`/explicit success flags mirroring the
  C bool / null-pointer sentinels.
-/

namespace RocksCopy

/-! ## Embedding of src/src/util/coding.cpp -/

/-- `EncodeFixed32`: little-endian raw byte copy of a `uint32_t`. -/
def EncodeFixed32 (v : Nat) : List Nat :=
  [v % 256, v / 256 % 256, v / 65536 % 256, v / 16777216 % 256]

/-- `EncodeFixed64`: little-endian raw byte copy of a `uint64_t`. -/
def EncodeFixed64 (v : Nat) : List Nat :=
  [v % 256, v / 2 ^ 8 % 256, v / 2 ^ 16 % 256, v / 2 ^ 24 % 256,
   v / 2 ^ 32 % 256, v / 2 ^ 40 % 256, v / 2 ^ 48 % 256, v / 2 ^ 56 % 256]

/-- `DecodeFixed32` (explicit little-endian byte-assembly branch; the
little-endian `memcpy` branch has the same observable result). -/
def DecodeFixed32 (p : List Nat) : Nat :=
  p.getD 0 0 % 256 + p.getD 1 0 % 256 * 256 +
    p.getD 2 0 % 256 * 65536 + p.getD 3 0 % 256 * 16777216

/-- `EncodeVarint32`: the five-way branch on the magnitude of `v`.
Each stored byte is an `unsigned char`, hence the `% 256`. -/
def EncodeVarint32 (v : Nat) : List Nat :=
  if v < 2 ^ 7 then [v % 256]
  else if v < 2 ^ 14 then [(v ||| 128) % 256, v >>> 7 % 256]
  else if v < 2 ^ 21 then
    [(v ||| 128) % 256, (v >>> 7 ||| 128) % 256, v >>> 14 % 256]
  else if v < 2 ^ 28 then
    [(v ||| 128) % 256, (v >>> 7 ||| 128) % 256, (v >>> 14 ||| 128) % 256,
     v >>> 21 % 256]
  else
    [(v ||| 128) % 256, (v >>> 7 ||| 128) % 256, (v >>> 14 ||| 128) % 256,
     (v >>> 21 ||| 128) % 256, v >>> 28 % 256]

/-- `EncodeVarint64`: `while (v >= 128) emit (v & 127) | 128; v >>= 7` then a
final plain byte. -/
def EncodeVarint64 (v : Nat) : List Nat :=
  if h : 128 ≤ v then (v &&& 127 ||| 128) :: EncodeVarint64 (v >>> 7)
  else [v % 256]
termination_by v
decreasing_by
  simp only [Nat.shiftRight_eq_div_pow]
  exact Nat.div_lt_self (by omega) (by norm_num)

/-- `VarintLength`: `len = 1; while (v >= 128) { v >>= 7; len++ }`. -/
def VarintLength (v : Nat) : Nat :=
  if h : 128 ≤ v then VarintLength (v >>> 7) + 1 else 1
termination_by v
decreasing_by
  simp only [Nat.shiftRight_eq_div_pow]
  exact Nat.div_lt_self (by omega) (by norm_num)

/-- The loop of `GetVarint32PtrFallback`: `for (shift = 0; shift <= 28 &&
p < limit; shift += 7)`.  Returns `some (value, bytes consumed)` on success,
`none` when the fallback returns `nullptr`. -/
def getVarint32Loop : List Nat → Nat → Nat → Nat → Option (Nat × Nat)
  | p, shift, result, consumed =>
    if shift ≤ 28 then
      match p with
      | [] => none
      | b :: rest =>
        let byte := b % 256
        if byte &&& 128 ≠ 0 then
          getVarint32Loop rest (shift + 7)
            (result ||| (byte &&& 127) <<< shift % 2 ^ 32) (consumed + 1)
        else
          some (result ||| byte <<< shift % 2 ^ 32, consumed + 1)
    else none

/-- `GetVarint32PtrFallback` entered with `result = 0`, `shift = 0`. -/
def GetVarint32PtrFallback (p : List Nat) : Option (Nat × Nat) :=
  getVarint32Loop p 0 0 0

/-- Inline `GetVarint32Ptr`: one-byte fast path, otherwise the fallback. -/
def GetVarint32Ptr (p : List Nat) : Option (Nat × Nat) :=
  match p with
  | b :: _ =>
    let result := b % 256
    if result &&& 128 = 0 then some (result, 1) else GetVarint32PtrFallback p
  | [] => GetVarint32PtrFallback []

/-- The loop of `GetVarint64Ptr`: `for (shift = 0; shift <= 63 && p < limit;
shift += 7)`, accumulating into a `uint64_t`. -/
def getVarint64Loop : List Nat → Nat → Nat → Nat → Option (Nat × Nat)
  | p, shift, result, consumed =>
    if shift ≤ 63 then
      match p with
      | [] => none
      | b :: rest =>
        let byte := b % 256
        if byte &&& 128 ≠ 0 then
          getVarint64Loop rest (shift + 7)
            (result ||| (byte &&& 127) <<< shift % 2 ^ 64) (consumed + 1)
        else
          some (result ||| byte <<< shift % 2 ^ 64, consumed + 1)
    else none

/-- `GetVarint64Ptr` entered with `result = 0`, `shift = 0`. -/
def GetVarint64Ptr (p : List Nat) : Option (Nat × Nat) :=
  getVarint64Loop p 0 0 0

/-- `GetVarint32(Slice* input, uint32* value)`: returns the success flag, the
input slice as the call leaves it, and the value slot (`none` = not written). -/
def GetVarint32 (input : List Nat) : Bool × List Nat × Option Nat :=
  match GetVarint32Ptr input with
  | none => (false, input, none)
  | some (v, consumed) => (true, input.drop consumed, some v)

/-- `GetVarint64(Slice* input, uint64* value)`, same conventions. -/
def GetVarint64 (input : List Nat) : Bool × List Nat × Option Nat :=
  match GetVarint64Ptr input with
  | none => (false, input, none)
  | some (v, consumed) => (true, input.drop consumed, some v)

/-- `GetLengthPrefixedSlice(Slice* input, Slice* result)`:
`if (GetVarint32(input, &len) && input->size() >= len) {...}`.
The slice left in `input` is whatever `GetVarint32` left there —
in particular, on the length-overrun failure path the varint has
already been consumed from `input`. -/
def GetLengthPrefixedSlice (input : List Nat) :
    Bool × List Nat × Option (List Nat) :=
  match GetVarint32 input with
  | (true, input1, some len) =>
    if len ≤ input1.length then
      (true, input1.drop len, some (input1.take len))
    else (false, input1, none)
  | (_, input1, _) => (false, input1, none)

/-- Pointer-based `GetLengthPrefixedSlice(const char* p, const char* limit,
Slice* result)`: returns `some (result, rest)` or `nullptr`. -/
def GetLengthPrefixedSlicePtr (p : List Nat) :
    Option (List Nat × List Nat) :=
  match GetVarint32Ptr p with
  | none => none
  | some (len, consumed) =>
    let rest := p.drop consumed
    if len ≤ rest.length then some (rest.take len, rest.drop len) else none

/-- `PutVarint32`: append the varint32 encoding to `dst`. -/
def PutVarint32 (dst : List Nat) (v : Nat) : List Nat := dst ++ EncodeVarint32 v

/-- `PutLengthPrefixedSlice`: varint32 of the size, then the raw bytes. -/
def PutLengthPrefixedSlice (dst : List Nat) (value : List Nat) : List Nat :=
  PutVarint32 dst value.length ++ value

/-! ### Bit-level helper lemmas -/

/-- Disjoint or is addition: `a ||| (b <<< k) = b * 2 ^ k + a` when `a < 2 ^ k`. -/
theorem lor_shiftLeft_eq_add {a : Nat} (b k : Nat) (h : a < 2 ^ k) :
    a ||| b <<< k = b * 2 ^ k + a := by
  apply Nat.eq_of_testBit_eq
  intro j
  rw [Nat.testBit_or, Nat.testBit_shiftLeft, Nat.mul_comm,
    Nat.testBit_mul_pow_two_add _ h]
  by_cases hj : j < k
  · simp [hj, Nat.not_le_of_lt hj]
  · have ha : a.testBit j = false :=
      Nat.testBit_lt_two_pow
        (lt_of_lt_of_le h (Nat.pow_le_pow_right (by norm_num) (by omega)))
    simp [ha, hj, Nat.le_of_not_lt hj]

/-- Setting the continuation bit: `(v ||| 128) % 256 = 128 + v % 128`. -/
theorem lor_128_mod_256 (v : Nat) : (v ||| 128) % 256 = 128 + v % 128 := by
  apply Nat.eq_of_testBit_eq
  intro j
  have hlt : v % 128 < 2 ^ 7 := by
    have := Nat.mod_lt v (y := 128) (by norm_num); omega
  rw [show (256 : Nat) = 2 ^ 8 from by norm_num, Nat.testBit_mod_two_pow,
    Nat.testBit_or,
    show 128 + v % 128 = 2 ^ 7 * 1 + v % 128 from by omega,
    Nat.testBit_mul_pow_two_add _ hlt]
  rcases Nat.lt_trichotomy j 7 with hj | hj | hj
  · have : (128 : Nat).testBit j = false := by
      rw [show (128 : Nat) = 2 ^ 7 from by norm_num]
      exact Nat.testBit_two_pow_of_ne (by omega)
    simp [this, hj, show j < 8 from by omega,
      show v % 128 = v % 2 ^ 7 from by norm_num, Nat.testBit_mod_two_pow]
  · subst hj
    have : (128 : Nat).testBit 7 = true := by
      rw [show (128 : Nat) = 2 ^ 7 from by norm_num]
      exact Nat.testBit_two_pow_self
    simp [this]
  · have h128 : (128 : Nat).testBit j = false := by
      rw [show (128 : Nat) = 2 ^ 7 from by norm_num]
      exact Nat.testBit_two_pow_of_ne (by omega)
    have hv : Nat.testBit 1 (j - 7) = false :=
      Nat.testBit_lt_two_pow (by
        have : 1 < 2 ^ 1 := by norm_num
        exact lt_of_lt_of_le this (Nat.pow_le_pow_right (by norm_num) (by omega)))
    simp [h128, hv, hj, show ¬ j < 7 from by omega, show ¬ j < 8 from by omega]

/-- A value below 128 has a clear continuation bit. -/
theorem and_128_eq_zero {d : Nat} (h : d < 128) : d &&& 128 = 0 := by
  apply Nat.eq_of_testBit_eq
  intro j
  rw [Nat.testBit_and, Nat.zero_testBit]
  by_cases hj : j = 7
  · subst hj
    have : d.testBit 7 = false := Nat.testBit_lt_two_pow (by norm_num; omega)
    simp [this]
  · have : (128 : Nat).testBit j = false := by
      rw [show (128 : Nat) = 2 ^ 7 from by norm_num]
      exact Nat.testBit_two_pow_of_ne (by omega)
    simp [this]

/-- A byte of the form `128 + d` (`d < 128`) has the continuation bit set. -/
theorem add_128_and_128 {d : Nat} (h : d < 128) : (128 + d) &&& 128 = 128 := by
  apply Nat.eq_of_testBit_eq
  intro j
  rw [Nat.testBit_and]
  have hd : d < 2 ^ 7 := by omega
  have hsum : (128 + d) = 2 ^ 7 * 1 + d := by omega
  by_cases hj : j = 7
  · subst hj
    rw [hsum, Nat.testBit_mul_pow_two_add _ hd]
    have h1 : Nat.testBit 1 0 = true := rfl
    have h2 : (128 : Nat).testBit 7 = true := by
      rw [show (128 : Nat) = 2 ^ 7 from by norm_num]
      exact Nat.testBit_two_pow_self
    simp [h1, h2]
  · have : (128 : Nat).testBit j = false := by
      rw [show (128 : Nat) = 2 ^ 7 from by norm_num]
      exact Nat.testBit_two_pow_of_ne (by omega)
    simp [this]

/-- Stripping the continuation bit: `(128 + d) &&& 127 = d` for `d < 128`. -/
theorem add_128_and_127 {d : Nat} (h : d < 128) : (128 + d) &&& 127 = d := by
  have : (128 + d) &&& (2 ^ 7 - 1) = (128 + d) % 2 ^ 7 :=
    Nat.and_pow_two_sub_one_eq_mod _ 7
  norm_num at this
  omega

/-- `d &&& 127 = d` for `d < 128`. -/
theorem and_127_of_lt {d : Nat} (h : d < 128) : d &&& 127 = d := by
  have : d &&& (2 ^ 7 - 1) = d % 2 ^ 7 := Nat.and_pow_two_sub_one_eq_mod _ 7
  norm_num at this
  omega

/-- `d ||| 128 = 128 + d` for `d < 128`. -/
theorem lor_128_eq_add {d : Nat} (h : d < 128) : d ||| 128 = 128 + d := by
  have h7 : d < 2 ^ 7 := by omega
  have := lor_shiftLeft_eq_add (a := d) 1 7 h7
  norm_num at this
  rw [show (1 : Nat) <<< 7 = 128 from by decide] at this
  omega

/-- `v &&& 127 = v % 128`. -/
theorem and_127_eq_mod (v : Nat) : v &&& 127 = v % 128 := by
  have : v &&& (2 ^ 7 - 1) = v % 2 ^ 7 := Nat.and_pow_two_sub_one_eq_mod _ 7
  norm_num at this
  omega

/-! ### Varint round-trip lemmas -/

/-- Decoding an `EncodeVarint64` image with `getVarint64Loop`, from an
arbitrary intermediate loop state. -/
theorem getVarint64Loop_encode (v : Nat) :
    ∀ (rest : List Nat) (shift result consumed : Nat), shift ≤ 63 →
      result < 2 ^ shift → result + v * 2 ^ shift < 2 ^ 64 →
      getVarint64Loop (EncodeVarint64 v ++ rest) shift result consumed =
        some (result + v * 2 ^ shift, consumed + VarintLength v) := by
  induction v using Nat.strong_induction_on with
  | _ v ih =>
    intro rest shift result consumed hle hres hbound
    by_cases hv : 128 ≤ v
    · have hmul : 2 ^ (shift + 7) ≤ v * 2 ^ shift := by
        rw [pow_add]
        calc 2 ^ shift * 2 ^ 7 = 128 * 2 ^ shift := by ring
        _ ≤ v * 2 ^ shift := Nat.mul_le_mul_right _ hv
      have hsh7 : shift + 7 ≤ 63 := by
        have h3 : (2 : Nat) ^ (shift + 7) < 2 ^ 64 := by omega
        have := (Nat.pow_lt_pow_iff_right (a := 2) (by norm_num)).mp h3
        omega
      have hbyte : v &&& 127 ||| 128 = 128 + v % 128 := by
        rw [and_127_eq_mod, lor_128_eq_add (by omega)]
      rw [EncodeVarint64, dif_pos hv, hbyte, List.cons_append,
        getVarint64Loop]
      have hmod : (128 + v % 128) % 256 = 128 + v % 128 :=
        Nat.mod_eq_of_lt (by omega)
      rw [if_pos hle]
      simp only [hmod, add_128_and_128 (Nat.mod_lt _ (by norm_num)),
        add_128_and_127 (Nat.mod_lt _ (by norm_num))]
      rw [if_pos (by norm_num : (128 : Nat) ≠ 0)]
      have hshl : (v % 128) <<< shift = v % 128 * 2 ^ shift := Nat.shiftLeft_eq _ _
      have hlt64 : v % 128 * 2 ^ shift < 2 ^ 64 := by
        have : v % 128 * 2 ^ shift ≤ v * 2 ^ shift :=
          Nat.mul_le_mul_right _ (Nat.mod_le _ _)
        omega
      have hacc : result ||| (v % 128) <<< shift % 2 ^ 64 =
          v % 128 * 2 ^ shift + result := by
        rw [hshl, Nat.mod_eq_of_lt hlt64]
        have h0 := lor_shiftLeft_eq_add (a := result) (v % 128) shift hres
        rw [hshl] at h0
        exact h0
      rw [hacc]
      have hres' : v % 128 * 2 ^ shift + result < 2 ^ (shift + 7) := by
        have h1 : v % 128 * 2 ^ shift ≤ 127 * 2 ^ shift :=
          Nat.mul_le_mul_right _ (by omega)
        have h2 : (127 : Nat) * 2 ^ shift + 2 ^ shift = 2 ^ (shift + 7) := by
          rw [pow_add]; ring
        omega
      have hsplit : v % 128 * 2 ^ shift + result + v >>> 7 * 2 ^ (shift + 7) =
          result + v * 2 ^ shift := by
        rw [Nat.shiftRight_eq_div_pow]
        have hdm : 128 * (v / 2 ^ 7) + v % 128 = v := by
          have := Nat.div_add_mod v 128
          norm_num
          omega
        calc v % 128 * 2 ^ shift + result + v / 2 ^ 7 * 2 ^ (shift + 7)
            = result + (128 * (v / 2 ^ 7) + v % 128) * 2 ^ shift := by
              rw [pow_add]; ring
        _ = result + v * 2 ^ shift := by rw [hdm]
      have hbound' : v % 128 * 2 ^ shift + result + v >>> 7 * 2 ^ (shift + 7) <
          2 ^ 64 := by rw [hsplit]; exact hbound
      have hrec : v >>> 7 < v := by
        rw [Nat.shiftRight_eq_div_pow]
        exact Nat.div_lt_self (by omega) (by norm_num)
      rw [ih (v >>> 7) hrec rest (shift + 7) _ (consumed + 1) hsh7 hres' hbound']
      have hVL : VarintLength v = VarintLength (v >>> 7) + 1 := by
        rw [VarintLength, dif_pos hv]
      rw [hsplit, hVL,
        show consumed + 1 + VarintLength (v >>> 7) =
          consumed + (VarintLength (v >>> 7) + 1) from by omega]
    · rw [EncodeVarint64, dif_neg hv, Nat.mod_eq_of_lt (by omega),
        List.cons_append, getVarint64Loop, if_pos hle]
      simp only [Nat.mod_eq_of_lt (show v < 256 by omega),
        and_128_eq_zero (show v < 128 by omega)]
      rw [if_neg (by simp)]
      have hlt64 : v * 2 ^ shift < 2 ^ 64 := by omega
      rw [show v <<< shift % 2 ^ 64 = v <<< shift from by
          rw [Nat.shiftLeft_eq]; exact Nat.mod_eq_of_lt hlt64,
        lor_shiftLeft_eq_add _ _ hres]
      rw [VarintLength, dif_neg hv, Nat.add_comm result (v * 2 ^ shift)]

/-- Decoding an `EncodeVarint64` image with the 32-bit loop (an encoding of a
value below `2 ^ 32` never leaves the 32-bit loop's shift range). -/
theorem getVarint32Loop_encode (v : Nat) :
    ∀ (rest : List Nat) (shift result consumed : Nat), 7 ∣ shift → shift ≤ 28 →
      result < 2 ^ shift → result + v * 2 ^ shift < 2 ^ 32 →
      getVarint32Loop (EncodeVarint64 v ++ rest) shift result consumed =
        some (result + v * 2 ^ shift, consumed + VarintLength v) := by
  induction v using Nat.strong_induction_on with
  | _ v ih =>
    intro rest shift result consumed h7 hle hres hbound
    by_cases hv : 128 ≤ v
    · have hmul : 2 ^ (shift + 7) ≤ v * 2 ^ shift := by
        rw [pow_add]
        calc 2 ^ shift * 2 ^ 7 = 128 * 2 ^ shift := by ring
        _ ≤ v * 2 ^ shift := Nat.mul_le_mul_right _ hv
      have hsh7 : shift + 7 ≤ 28 := by
        have h3 : (2 : Nat) ^ (shift + 7) < 2 ^ 32 := by omega
        have h4 := (Nat.pow_lt_pow_iff_right (a := 2) (by norm_num)).mp h3
        -- shift + 7 < 32 and 7 ∣ shift + 7 force shift + 7 ≤ 28
        rcases h7 with ⟨c, rfl⟩
        omega
      have hbyte : v &&& 127 ||| 128 = 128 + v % 128 := by
        rw [and_127_eq_mod, lor_128_eq_add (by omega)]
      rw [EncodeVarint64, dif_pos hv, hbyte, List.cons_append,
        getVarint32Loop]
      have hmod : (128 + v % 128) % 256 = 128 + v % 128 :=
        Nat.mod_eq_of_lt (by omega)
      rw [if_pos hle]
      simp only [hmod, add_128_and_128 (Nat.mod_lt _ (by norm_num)),
        add_128_and_127 (Nat.mod_lt _ (by norm_num))]
      rw [if_pos (by norm_num : (128 : Nat) ≠ 0)]
      have hshl : (v % 128) <<< shift = v % 128 * 2 ^ shift := Nat.shiftLeft_eq _ _
      have hlt32 : v % 128 * 2 ^ shift < 2 ^ 32 := by
        have : v % 128 * 2 ^ shift ≤ v * 2 ^ shift :=
          Nat.mul_le_mul_right _ (Nat.mod_le _ _)
        omega
      have hacc : result ||| (v % 128) <<< shift % 2 ^ 32 =
          v % 128 * 2 ^ shift + result := by
        rw [hshl, Nat.mod_eq_of_lt hlt32]
        have h0 := lor_shiftLeft_eq_add (a := result) (v % 128) shift hres
        rw [hshl] at h0
        exact h0
      rw [hacc]
      have hres' : v % 128 * 2 ^ shift + result < 2 ^ (shift + 7) := by
        have h1 : v % 128 * 2 ^ shift ≤ 127 * 2 ^ shift :=
          Nat.mul_le_mul_right _ (by omega)
        have h2 : (127 : Nat) * 2 ^ shift + 2 ^ shift = 2 ^ (shift + 7) := by
          rw [pow_add]; ring
        omega
      have hsplit : v % 128 * 2 ^ shift + result + v >>> 7 * 2 ^ (shift + 7) =
          result + v * 2 ^ shift := by
        rw [Nat.shiftRight_eq_div_pow]
        have hdm : 128 * (v / 2 ^ 7) + v % 128 = v := by
          have := Nat.div_add_mod v 128
          norm_num
          omega
        calc v % 128 * 2 ^ shift + result + v / 2 ^ 7 * 2 ^ (shift + 7)
            = result + (128 * (v / 2 ^ 7) + v % 128) * 2 ^ shift := by
              rw [pow_add]; ring
        _ = result + v * 2 ^ shift := by rw [hdm]
      have hbound' : v % 128 * 2 ^ shift + result + v >>> 7 * 2 ^ (shift + 7) <
          2 ^ 32 := by rw [hsplit]; exact hbound
      have hrec : v >>> 7 < v := by
        rw [Nat.shiftRight_eq_div_pow]
        exact Nat.div_lt_self (by omega) (by norm_num)
      rw [ih (v >>> 7) hrec rest (shift + 7) _ (consumed + 1)
        (by omega : 7 ∣ shift + 7) hsh7 hres' hbound']
      have hVL : VarintLength v = VarintLength (v >>> 7) + 1 := by
        rw [VarintLength, dif_pos hv]
      rw [hsplit, hVL,
        show consumed + 1 + VarintLength (v >>> 7) =
          consumed + (VarintLength (v >>> 7) + 1) from by omega]
    · rw [EncodeVarint64, dif_neg hv, Nat.mod_eq_of_lt (by omega),
        List.cons_append, getVarint32Loop, if_pos hle]
      simp only [Nat.mod_eq_of_lt (show v < 256 by omega),
        and_128_eq_zero (show v < 128 by omega)]
      rw [if_neg (by simp)]
      have hlt32 : v * 2 ^ shift < 2 ^ 32 := by omega
      rw [show v <<< shift % 2 ^ 32 = v <<< shift from by
          rw [Nat.shiftLeft_eq]; exact Nat.mod_eq_of_lt hlt32,
        lor_shiftLeft_eq_add _ _ hres]
      rw [VarintLength, dif_neg hv, Nat.add_comm result (v * 2 ^ shift)]

/-- On values below `2 ^ 32`, the branchy 32-bit encoder emits exactly the
bytes of the loop-based 64-bit encoder. -/
theorem encodeVarint32_eq {v : Nat} (h : v < 2 ^ 32) :
    EncodeVarint32 v = EncodeVarint64 v := by
  have key : ∀ w : Nat, (w ||| 128) % 256 = w &&& 127 ||| 128 := by
    intro w
    rw [lor_128_mod_256, and_127_eq_mod, lor_128_eq_add (Nat.mod_lt _ (by norm_num))]
  have e7 : v >>> 7 = v / 128 := by
    rw [Nat.shiftRight_eq_div_pow]
  have e14 : v >>> 7 >>> 7 = v / 16384 := by
    rw [Nat.shiftRight_eq_div_pow, Nat.shiftRight_eq_div_pow,
      Nat.div_div_eq_div_mul]
  have e21 : v >>> 7 >>> 7 >>> 7 = v / 2097152 := by
    rw [Nat.shiftRight_eq_div_pow (m := v >>> 7 >>> 7), e14,
      Nat.div_div_eq_div_mul]
  rw [EncodeVarint32]
  by_cases h1 : v < 2 ^ 7
  · rw [if_pos h1, EncodeVarint64, dif_neg (by omega)]
  · rw [if_neg h1]
    by_cases h2 : v < 2 ^ 14
    · rw [if_pos h2, EncodeVarint64, dif_pos (by omega), key v,
        EncodeVarint64, dif_neg (by rw [e7]; omega)]
    · rw [if_neg h2]
      by_cases h3 : v < 2 ^ 21
      · rw [if_pos h3, key v, key (v >>> 7),
          EncodeVarint64, dif_pos (by omega),
          EncodeVarint64, dif_pos (by rw [e7]; omega),
          EncodeVarint64, dif_neg (by rw [e14]; omega)]
        simp only [Nat.shiftRight_eq_div_pow, Nat.div_div_eq_div_mul]
      · rw [if_neg h3]
        by_cases h4 : v < 2 ^ 28
        · rw [if_pos h4, key v, key (v >>> 7), key (v >>> 14),
            EncodeVarint64, dif_pos (by omega),
            EncodeVarint64, dif_pos (by rw [e7]; omega),
            EncodeVarint64, dif_pos (by rw [e14]; omega),
            EncodeVarint64, dif_neg (by rw [e21]; omega)]
          simp only [Nat.shiftRight_eq_div_pow, Nat.div_div_eq_div_mul]
        · rw [if_neg h4, key v, key (v >>> 7), key (v >>> 14), key (v >>> 21),
            EncodeVarint64, dif_pos (by omega),
            EncodeVarint64, dif_pos (by rw [e7]; omega),
            EncodeVarint64, dif_pos (by rw [e14]; omega),
            EncodeVarint64, dif_pos (by rw [e21]; omega),
            EncodeVarint64, dif_neg (by
              rw [Nat.shiftRight_eq_div_pow (m := v >>> 7 >>> 7 >>> 7), e21,
                Nat.div_div_eq_div_mul]
              omega)]
          simp only [Nat.shiftRight_eq_div_pow, Nat.div_div_eq_div_mul]

/-- The 64-bit encoder emits exactly `VarintLength v` bytes. -/
theorem encodeVarint64_length (v : Nat) :
    (EncodeVarint64 v).length = VarintLength v := by
  induction v using Nat.strong_induction_on with
  | _ v ih =>
    by_cases hv : 128 ≤ v
    · rw [EncodeVarint64, dif_pos hv, VarintLength, dif_pos hv,
        List.length_cons, ih _ (by
          rw [Nat.shiftRight_eq_div_pow]
          exact Nat.div_lt_self (by omega) (by norm_num))]
    · rw [EncodeVarint64, dif_neg hv, VarintLength, dif_neg hv]
      rfl

/-- `VarintLength v ≤ k` whenever `v < 2 ^ (7 * k)`. -/
theorem varintLength_le (k : Nat) :
    ∀ v : Nat, v < 2 ^ (7 * k + 7) → VarintLength v ≤ k + 1 := by
  induction k with
  | zero =>
    intro v h
    norm_num at h
    rw [VarintLength, dif_neg (by omega)]
  | succ k ih =>
    intro v h
    by_cases hv : 128 ≤ v
    · rw [VarintLength, dif_pos hv]
      have hlt : v >>> 7 < 2 ^ (7 * k + 7) := by
        rw [Nat.shiftRight_eq_div_pow]
        have hpow : 2 ^ (7 * (k + 1) + 7) = 2 ^ (7 * k + 7) * 2 ^ 7 := by
          rw [← pow_add]; ring_nf
        rw [Nat.div_lt_iff_lt_mul (by norm_num : 0 < 2 ^ 7)]
        omega
      have := ih (v >>> 7) hlt
      omega
    · rw [VarintLength, dif_neg hv]
      omega

/-- The inlined `GetVarint32Ptr` agrees with `GetVarint32PtrFallback`. -/
theorem getVarint32Ptr_eq_fallback (p : List Nat) :
    GetVarint32Ptr p = GetVarint32PtrFallback p := by
  match p with
  | [] => rfl
  | b :: rest =>
    by_cases hb : b % 256 &&& 128 = 0
    · have h256 : b % 256 < 256 := Nat.mod_lt _ (by norm_num)
      have hm : b % 256 % 2 ^ 32 = b % 256 := Nat.mod_eq_of_lt (by omega)
      simp [GetVarint32Ptr, GetVarint32PtrFallback, getVarint32Loop, hb, hm]
      omega
    · simp [GetVarint32Ptr, hb]

/-- **C4** (algebraic_relational).  For every `uint32` value `v`, decoding the
bytes written by `EncodeVarint32` via `GetVarint32Ptr` (with any suffix, i.e.
a sufficient limit) yields `v` back after consuming exactly `VarintLength v`
bytes, the encoder writes exactly `VarintLength v ≤ 5` bytes; likewise for
`uint64` values with `EncodeVarint64`/`GetVarint64Ptr` and a bound of 10
bytes; and encoding 300 yields exactly the bytes `0xAC, 0x02`. -/
theorem varint_roundtrip (v : Nat) :
    (v < 2 ^ 32 → ∀ rest : List Nat,
      GetVarint32Ptr (EncodeVarint32 v ++ rest) = some (v, VarintLength v) ∧
      (EncodeVarint32 v).length = VarintLength v ∧ VarintLength v ≤ 5) ∧
    (v < 2 ^ 64 → ∀ rest : List Nat,
      GetVarint64Ptr (EncodeVarint64 v ++ rest) = some (v, VarintLength v) ∧
      (EncodeVarint64 v).length = VarintLength v ∧ VarintLength v ≤ 10) ∧
    EncodeVarint32 300 = [0xAC, 0x02] := by
  refine ⟨fun h32 rest => ⟨?_, ?_, ?_⟩, fun h64 rest => ⟨?_, ?_, ?_⟩, by decide⟩
  · rw [getVarint32Ptr_eq_fallback, encodeVarint32_eq h32, GetVarint32PtrFallback,
      getVarint32Loop_encode v rest 0 0 0 ⟨0, rfl⟩ (by norm_num) (by norm_num)
        (by simpa using h32)]
    norm_num
  · rw [encodeVarint32_eq h32, encodeVarint64_length]
  · have := varintLength_le 4 v (by
      have h35 : (2 : Nat) ^ 32 ≤ 2 ^ (7 * 4 + 7) := by norm_num
      omega)
    omega
  · rw [GetVarint64Ptr, getVarint64Loop_encode v rest 0 0 0 (by norm_num)
      (by norm_num) (by simpa using h64)]
    norm_num
  · exact encodeVarint64_length v
  · have := varintLength_le 9 v (by
      have h70 : (2 : Nat) ^ 64 ≤ 2 ^ (7 * 9 + 7) := by norm_num
      omega)
    omega

/-- Witness for `varint_roundtrip` at `v = 300`, suffix `[]`. -/
theorem varint_roundtrip_witness :
    GetVarint32Ptr (EncodeVarint32 300 ++ []) = some (300, VarintLength 300) :=
  ((varint_roundtrip 300).1 (by decide) []).1

/-! ### C3: state left behind by failing decoders -/

/-- **C3** (error_handling), counterexample.  On the input slice `[2, 65]`
(varint length prefix 2, but only one byte left), `GetLengthPrefixedSlice`
fails — yet the input slice has been advanced past the length prefix,
contradicting the claim that a failing decode leaves the input unchanged. -/
theorem getLengthPrefixedSlice_advances_on_failure :
    (GetLengthPrefixedSlice [2, 65]).1 = false ∧
    (GetLengthPrefixedSlice [2, 65]).2.1 ≠ [2, 65] := by decide

/-- **C3** (error_handling), amended.  A failing `GetVarint32`/`GetVarint64`
leaves the input slice unchanged and writes no value.  A failing
`GetLengthPrefixedSlice` never writes the result output, and leaves the input
unchanged when the varint decode itself fails; but when the failure is a
declared length exceeding the remaining buffer, the input has already been
advanced past the length prefix. -/
theorem decode_failure_state (input : List Nat) :
    ((GetVarint32 input).1 = false →
      (GetVarint32 input).2.1 = input ∧ (GetVarint32 input).2.2 = none) ∧
    ((GetVarint64 input).1 = false →
      (GetVarint64 input).2.1 = input ∧ (GetVarint64 input).2.2 = none) ∧
    ((GetLengthPrefixedSlice input).1 = false →
      (GetLengthPrefixedSlice input).2.2 = none ∧
        ((GetLengthPrefixedSlice input).2.1 = input ∨
          ((GetVarint32 input).1 = true ∧
            (GetLengthPrefixedSlice input).2.1 = (GetVarint32 input).2.1))) := by
  refine ⟨?_, ?_, ?_⟩
  · intro h
    rcases hv : GetVarint32Ptr input with _ | ⟨v, c⟩
    · simp [GetVarint32, hv]
    · simp [GetVarint32, hv] at h
  · intro h
    rcases hv : GetVarint64Ptr input with _ | ⟨v, c⟩
    · simp [GetVarint64, hv]
    · simp [GetVarint64, hv] at h
  · intro h
    rcases hv : GetVarint32Ptr input with _ | ⟨v, c⟩
    · simp [GetLengthPrefixedSlice, GetVarint32, hv]
    · by_cases hlen : v ≤ input.length - c
      · simp [GetLengthPrefixedSlice, GetVarint32, hv, hlen] at h
      · simp [GetLengthPrefixedSlice, GetVarint32, hv, hlen]

/-- Witness for `decode_failure_state` at the input `[2, 65]`. -/
theorem decode_failure_state_witness :
    (GetLengthPrefixedSlice [2, 65]).2.2 = none ∧
      ((GetLengthPrefixedSlice [2, 65]).2.1 = [2, 65] ∨
        ((GetVarint32 [2, 65]).1 = true ∧
          (GetLengthPrefixedSlice [2, 65]).2.1 = (GetVarint32 [2, 65]).2.1)) :=
  (decode_failure_state [2, 65]).2.2 (by decide)

/-! ## Embedding of src/src/util/hash.cpp -/

/-- Sign extension of a `char` byte to a `uint32_t` value: the leftover-byte
switch reads `data[i]` through a (signed) `char`, so bytes ≥ 128 contribute
their value minus 256 (mod `2 ^ 32`). -/
def sext8to32 (b : Nat) : Nat :=
  if b % 256 < 128 then b % 256 else b % 256 + (2 ^ 32 - 256)

/-- The 4-byte main loop of `Hash`: `while (data + 4 <= limit)`, consuming a
little-endian word at a time.  Returns the running hash and leftover bytes. -/
def hashLoop : List Nat → Nat → Nat × List Nat
  | b0 :: b1 :: b2 :: b3 :: rest, h =>
    let w := b0 % 256 + b1 % 256 * 256 + b2 % 256 * 65536 +
      b3 % 256 * 16777216
    let h1 := (h + w) % 2 ^ 32
    let h2 := h1 * 0xc6a4a793 % 2 ^ 32
    let h3 := h2 ^^^ h2 >>> 16
    hashLoop rest h3
  | rest, h => (h, rest)

/-- The leftover-byte `switch` of `Hash` (cases 3, 2, 1 with fallthrough). -/
def hashTail (rem : List Nat) (h : Nat) : Nat :=
  match rem with
  | [b0, b1, b2] =>
    let h1 := (h + sext8to32 b2 * 65536) % 2 ^ 32
    let h2 := (h1 + sext8to32 b1 * 256) % 2 ^ 32
    let h3 := (h2 + sext8to32 b0) % 2 ^ 32
    let h4 := h3 * 0xc6a4a793 % 2 ^ 32
    h4 ^^^ h4 >>> 24
  | [b0, b1] =>
    let h2 := (h + sext8to32 b1 * 256) % 2 ^ 32
    let h3 := (h2 + sext8to32 b0) % 2 ^ 32
    let h4 := h3 * 0xc6a4a793 % 2 ^ 32
    h4 ^^^ h4 >>> 24
  | [b0] =>
    let h3 := (h + sext8to32 b0) % 2 ^ 32
    let h4 := h3 * 0xc6a4a793 % 2 ^ 32
    h4 ^^^ h4 >>> 24
  | _ => h

/-- `Hash(data, n, seed)` with `n = data.length`: seed the state with
`seed ^ (n * m)`, run the word loop, then the leftover switch. -/
def Hash (data : List Nat) (seed : Nat) : Nat :=
  let m := 0xc6a4a793
  let h0 := (seed ^^^ data.length * m) % 2 ^ 32
  let hr := hashLoop data h0
  hashTail hr.2 hr.1

/-- **C6** (functional_correctness).  For every seed `s` (a `uint32_t`),
`Hash` of a zero-length byte range returns exactly `s`: the initializer
`seed ^ (0 * m)` is `seed`, and both the 4-byte loop and the leftover
switch run zero iterations. -/
theorem hash_empty_eq_seed (seed : Nat) (h : seed < 2 ^ 32) :
    Hash [] seed = seed := by
  show hashTail (hashLoop [] ((seed ^^^ 0 * 0xc6a4a793) % 2 ^ 32)).2
      (hashLoop [] ((seed ^^^ 0 * 0xc6a4a793) % 2 ^ 32)).1 = seed
  rw [Nat.zero_mul, Nat.xor_zero, Nat.mod_eq_of_lt h]
  rfl

/-- Witness for `hash_empty_eq_seed` at `seed = 0xbc9f1d34`. -/
theorem hash_empty_eq_seed_witness : Hash [] 0xbc9f1d34 = 0xbc9f1d34 :=
  hash_empty_eq_seed 0xbc9f1d34 (by decide)

/-! ## Embedding of the Arena (util/arena.h + the arena translation unit) -/

/-- Arena state.  `alloc_ptr_mod` is the bump pointer's residue modulo the
8-byte alignment (fresh `new[]` blocks are at least 8-byte aligned, and a
null pointer has residue 0); `blocks_capacity` models `blocks_.capacity()`
under the usual doubling growth policy of `std::vector::push_back`. -/
structure ArenaState where
  alloc_ptr_mod : Nat
  alloc_bytes_remaining_ : Nat
  blocks_memory_ : Nat
  blocks_size : Nat
  blocks_capacity : Nat
deriving DecidableEq

/-- `kBlockSize = 4096`. -/
def kBlockSize : Nat := 4096

/-- `Arena::Arena()`. -/
def arenaInit : ArenaState :=
  { alloc_ptr_mod := 0, alloc_bytes_remaining_ := 0, blocks_memory_ := 0,
    blocks_size := 0, blocks_capacity := 0 }

/-- `std::vector` capacity after a `push_back` (doubling growth). -/
def vecPushCapacity (size cap : Nat) : Nat :=
  if size < cap then cap else max (2 * cap) 1

/-- `Arena::AllocateNewBlock`: `new char[bytes]`, account it, push it. -/
def AllocateNewBlock (s : ArenaState) (blockBytes : Nat) : ArenaState :=
  { s with blocks_memory_ := s.blocks_memory_ + blockBytes,
           blocks_size := s.blocks_size + 1,
           blocks_capacity := vecPushCapacity s.blocks_size s.blocks_capacity }

/-- `Arena::AllocateFallback`: oversized requests (more than a quarter block)
get a dedicated block; otherwise start a fresh standard block (wasting the
old remainder) and bump from it. -/
def AllocateFallback (s : ArenaState) (bytes : Nat) : ArenaState :=
  if bytes > kBlockSize / 4 then AllocateNewBlock s bytes
  else
    let s1 := AllocateNewBlock s kBlockSize
    { s1 with alloc_ptr_mod := bytes % 8,
              alloc_bytes_remaining_ := kBlockSize - bytes }

/-- `Arena::Allocate` (inline in the header): bump in place on fit, else
fall back. -/
def Allocate (s : ArenaState) (bytes : Nat) : ArenaState :=
  if bytes ≤ s.alloc_bytes_remaining_ then
    { s with alloc_ptr_mod := (s.alloc_ptr_mod + bytes) % 8,
             alloc_bytes_remaining_ := s.alloc_bytes_remaining_ - bytes }
  else AllocateFallback s bytes

/-- `Arena::AllocateAligned`: pad to the 8-byte boundary, bump if the padded
size fits, else fall back with the raw size. -/
def AllocateAligned (s : ArenaState) (bytes : Nat) : ArenaState :=
  let current_mod := s.alloc_ptr_mod % 8
  let slop := if current_mod = 0 then 0 else 8 - current_mod
  let needed := bytes + slop
  if needed ≤ s.alloc_bytes_remaining_ then
    { s with alloc_ptr_mod := (s.alloc_ptr_mod + needed) % 8,
             alloc_bytes_remaining_ := s.alloc_bytes_remaining_ - needed }
  else AllocateFallback s bytes

/-- `Arena::MemoryUsage()`: block bytes plus vector bookkeeping
(`capacity() * sizeof(char*)`, pointers being 8 bytes). -/
def MemoryUsage (s : ArenaState) : Nat :=
  s.blocks_memory_ + s.blocks_capacity * 8

/-- One allocation request: `Allocate` or `AllocateAligned`. -/
inductive ArenaReq where
  | allocate (bytes : Nat)
  | allocateAligned (bytes : Nat)
deriving DecidableEq

/-- The requested size of an allocation request. -/
def ArenaReq.size : ArenaReq → Nat
  | .allocate n => n
  | .allocateAligned n => n

/-- Dispatch one request against the arena. -/
def arenaStep (s : ArenaState) : ArenaReq → ArenaState
  | .allocate n => Allocate s n
  | .allocateAligned n => AllocateAligned s n

/-- Run a request list against the freshly constructed arena. -/
def arenaRun (reqs : List ArenaReq) : ArenaState :=
  reqs.foldl arenaStep arenaInit

/-- Per-step accounting invariant: the block bytes always cover the sum of
all satisfied requests plus the unused remainder of the current block. -/
theorem arenaStep_invariant (s : ArenaState) (r : ArenaReq) (total : Nat)
    (hinv : total + s.alloc_bytes_remaining_ ≤ s.blocks_memory_) :
    total + r.size + (arenaStep s r).alloc_bytes_remaining_ ≤
      (arenaStep s r).blocks_memory_ := by
  rcases r with n | n
  · show total + n + (Allocate s n).alloc_bytes_remaining_ ≤
      (Allocate s n).blocks_memory_
    rw [Allocate]
    by_cases hfit : n ≤ s.alloc_bytes_remaining_
    · rw [if_pos hfit]; dsimp only; omega
    · rw [if_neg hfit, AllocateFallback]
      by_cases hbig : n > kBlockSize / 4
      · rw [if_pos hbig, AllocateNewBlock]; dsimp only; omega
      · rw [if_neg hbig]
        dsimp only [AllocateNewBlock, kBlockSize] at *
        omega
  · show total + n + (AllocateAligned s n).alloc_bytes_remaining_ ≤
      (AllocateAligned s n).blocks_memory_
    simp only [AllocateAligned]
    by_cases hfit : n + (if s.alloc_ptr_mod % 8 = 0 then 0
        else 8 - s.alloc_ptr_mod % 8) ≤ s.alloc_bytes_remaining_
    · rw [if_pos hfit]; dsimp only; omega
    · rw [if_neg hfit, AllocateFallback]
      by_cases hbig : n > kBlockSize / 4
      · rw [if_pos hbig, AllocateNewBlock]; dsimp only; omega
      · rw [if_neg hbig]
        dsimp only [AllocateNewBlock, kBlockSize] at *
        omega

/-- `MemoryUsage` never decreases across a single request. -/
theorem arenaStep_memoryUsage_mono (s : ArenaState) (r : ArenaReq) :
    MemoryUsage s ≤ MemoryUsage (arenaStep s r) := by
  have hcap : ∀ sz cap : Nat, cap ≤ vecPushCapacity sz cap := by
    intro sz cap
    rw [vecPushCapacity]
    by_cases hl : sz < cap
    · rw [if_pos hl]
    · rw [if_neg hl]; omega
  have hnew : ∀ (t : ArenaState) (b : Nat),
      MemoryUsage t ≤ MemoryUsage (AllocateNewBlock t b) := by
    intro t b
    dsimp only [MemoryUsage, AllocateNewBlock]
    have := hcap t.blocks_size t.blocks_capacity
    omega
  have hfb : ∀ (t : ArenaState) (b : Nat),
      MemoryUsage t ≤ MemoryUsage (AllocateFallback t b) := by
    intro t b
    rw [AllocateFallback]
    by_cases hbig : b > kBlockSize / 4
    · rw [if_pos hbig]; exact hnew t b
    · rw [if_neg hbig]
      have := hnew t kBlockSize
      dsimp only [MemoryUsage, AllocateNewBlock] at *
      omega
  rcases r with n | n
  · show MemoryUsage s ≤ MemoryUsage (Allocate s n)
    rw [Allocate]
    by_cases hfit : n ≤ s.alloc_bytes_remaining_
    · rw [if_pos hfit]; dsimp only [MemoryUsage]; omega
    · rw [if_neg hfit]; exact hfb s n
  · show MemoryUsage s ≤ MemoryUsage (AllocateAligned s n)
    simp only [AllocateAligned]
    by_cases hfit : n + (if s.alloc_ptr_mod % 8 = 0 then 0
        else 8 - s.alloc_ptr_mod % 8) ≤ s.alloc_bytes_remaining_
    · rw [if_pos hfit]; dsimp only [MemoryUsage]; omega
    · rw [if_neg hfit]; exact hfb s n

/-- The fold-level accounting invariant. -/
theorem arenaRun_invariant :
    ∀ (reqs : List ArenaReq) (s : ArenaState) (total : Nat),
      total + s.alloc_bytes_remaining_ ≤ s.blocks_memory_ →
      total + (reqs.map ArenaReq.size).sum +
          (reqs.foldl arenaStep s).alloc_bytes_remaining_ ≤
        (reqs.foldl arenaStep s).blocks_memory_ := by
  intro reqs
  induction reqs with
  | nil => intro s total h; simpa using h
  | cons r rs ih =>
    intro s total h
    have hstep := arenaStep_invariant s r total h
    have := ih (arenaStep s r) (total + r.size) hstep
    simp only [List.map_cons, List.sum_cons, List.foldl_cons]
    have harr : total + (r.size + (rs.map ArenaReq.size).sum) =
        total + r.size + (rs.map ArenaReq.size).sum := by omega
    rw [harr]
    exact this

/-- **C7** (invariants).  For every sequence of `Allocate`/`AllocateAligned`
requests with positive sizes summing to `B`, `MemoryUsage()` is non-decreasing
after every single call (from any reachable or unreachable state alike), and
after running the whole sequence its value is at least `B`. -/
theorem arena_memoryUsage_monotone_and_covers (reqs : List ArenaReq)
    (hpos : ∀ r ∈ reqs, 0 < r.size) :
    (∀ (s : ArenaState) (r : ArenaReq),
      MemoryUsage s ≤ MemoryUsage (arenaStep s r)) ∧
    (reqs.map ArenaReq.size).sum ≤ MemoryUsage (arenaRun reqs) := by
  refine ⟨arenaStep_memoryUsage_mono, ?_⟩
  have := arenaRun_invariant reqs arenaInit 0 (by simp [arenaInit])
  dsimp only [arenaRun, MemoryUsage]
  omega

/-- Witness for `arena_memoryUsage_monotone_and_covers`: three positive
requests. -/
theorem arena_memoryUsage_witness :
    ([ArenaReq.allocate 100, ArenaReq.allocateAligned 5000,
        ArenaReq.allocate 2000].map ArenaReq.size).sum ≤
      MemoryUsage (arenaRun [ArenaReq.allocate 100,
        ArenaReq.allocateAligned 5000, ArenaReq.allocate 2000]) :=
  (arena_memoryUsage_monotone_and_covers _ (by decide)).2

/-- **C8** (functional_correctness).  `Arena::Allocate` policy: a request
that fits in the current remainder bumps in place (no new block, no new
bytes); on overflow a request exceeding a quarter of the 4096-byte standard
block gets a dedicated block sized exactly to the request (bump state
untouched); otherwise a fresh 4096-byte standard block replaces the current
one (its old remainder is discarded) and the request is bumped from it. -/
theorem allocate_overflow_policy (s : ArenaState) (n : Nat) :
    (n ≤ s.alloc_bytes_remaining_ →
      (Allocate s n).blocks_memory_ = s.blocks_memory_ ∧
      (Allocate s n).blocks_size = s.blocks_size ∧
      (Allocate s n).alloc_bytes_remaining_ = s.alloc_bytes_remaining_ - n) ∧
    (s.alloc_bytes_remaining_ < n → kBlockSize / 4 < n →
      (Allocate s n).blocks_memory_ = s.blocks_memory_ + n ∧
      (Allocate s n).blocks_size = s.blocks_size + 1 ∧
      (Allocate s n).alloc_bytes_remaining_ = s.alloc_bytes_remaining_) ∧
    (s.alloc_bytes_remaining_ < n → n ≤ kBlockSize / 4 →
      (Allocate s n).blocks_memory_ = s.blocks_memory_ + kBlockSize ∧
      (Allocate s n).blocks_size = s.blocks_size + 1 ∧
      (Allocate s n).alloc_bytes_remaining_ = kBlockSize - n) := by
  refine ⟨fun hfit => ?_, fun hover hbig => ?_, fun hover hsmall => ?_⟩
  · rw [Allocate, if_pos hfit]
    exact ⟨rfl, rfl, rfl⟩
  · rw [Allocate, if_neg (by omega), AllocateFallback, if_pos hbig,
      AllocateNewBlock]
    exact ⟨rfl, rfl, rfl⟩
  · rw [Allocate, if_neg (by omega), AllocateFallback, if_neg (by omega)]
    dsimp only [AllocateNewBlock]
    exact ⟨rfl, rfl, rfl⟩

/-- Witness for `allocate_overflow_policy`: the small-overflow branch at the
fresh arena with `n = 5`. -/
theorem allocate_overflow_policy_witness :
    (Allocate arenaInit 5).blocks_memory_ = arenaInit.blocks_memory_ + kBlockSize ∧
    (Allocate arenaInit 5).blocks_size = arenaInit.blocks_size + 1 ∧
    (Allocate arenaInit 5).alloc_bytes_remaining_ = kBlockSize - 5 :=
  (allocate_overflow_policy arenaInit 5).2.2 (by decide) (by decide)

/-! ## Embedding of the skip list (src/unnamed/part_005) -/

/-- A forward-pointer slot of a skip-list node: uninitialized arena memory,
a stored null pointer, or a stored pointer to node `id`. -/
inductive PtrVal where
  | uninit
  | null
  | node (id : Nat)
deriving DecidableEq

/-- `kMaxHeight = 12`. -/
def kMaxHeight : Nat := 12

/-- `kBranching = 4`. -/
def kBranching : Nat := 4

/-- The `while (height < kMaxHeight && ((rnd_.Next() & kBranching) == 0))`
loop of `RandomHeight`, over an explicit stream of generator draws, made
structural on the headroom `gas = kMaxHeight - height` (the `height <
kMaxHeight` guard is exactly `gas > 0`). -/
def randomHeightGo (draws : Nat → Nat) : Nat → Nat → Nat → Nat
  | _, height, 0 => height
  | k, height, gas + 1 =>
    if draws k &&& kBranching = 0 then
      randomHeightGo draws (k + 1) (height + 1) gas
    else height

/-- `SkipList::RandomHeight` starting at height 1 and draw index 0. -/
def RandomHeight (draws : Nat → Nat) : Nat :=
  randomHeightGo draws 0 1 (kMaxHeight - 1)

/-- The same loop as the spec describes it — "height is incremented while a
per-call uniform random draw modulo the branching factor equals zero" — i.e.
with `% kBranching` where the code has `&&& kBranching`; kept for comparison
against `RandomHeight`. -/
def randomHeightSpecGo (draws : Nat → Nat) : Nat → Nat → Nat → Nat
  | _, height, 0 => height
  | k, height, gas + 1 =>
    if draws k % kBranching = 0 then
      randomHeightSpecGo draws (k + 1) (height + 1) gas
    else height

/-- Spec-described `RandomHeight` (modulo test), for comparison. -/
def RandomHeightSpecModel (draws : Nat → Nat) : Nat :=
  randomHeightSpecGo draws 0 1 (kMaxHeight - 1)

/-- **C5** (functional_correctness).  The code's height loop continues on
`(draw & 4) == 0`, not on `draw % 4 == 0` as claimed: on the draw stream
that always returns 1 (where `1 % 4 = 1` would stop the claimed loop at
height 1 immediately), the code's loop runs to the cap and returns 12. -/
theorem randomHeight_uses_and_not_mod :
    RandomHeight (fun _ => 1) = 12 ∧
    RandomHeightSpecModel (fun _ => 1) = 1 ∧
    1 &&& kBranching = 0 ∧ 1 % kBranching ≠ 0 := by decide

/-- The level-linking loop of `SkipList::Insert`, final-state view: for each
level `i < height` the statement
`x->NoBarrier_Next(prev_[i]->NoBarrier_Next(i));` performs only relaxed
loads whose results are discarded (it is moreover ill-typed as written —
upstream LevelDB stores the loaded pointer via `x->NoBarrier_SetNext`), so
no store to the new node `x` ever happens; then `prev_[i]->SetNext(i, x)`
release-stores `x` into the predecessor.  `nexts` is the forward-pointer
heap, `prevs` the splice points. -/
def insertLinkLoop (nexts : Nat → Nat → PtrVal) (prevs : Nat → Nat)
    (x : Nat) : Nat → (Nat → Nat → PtrVal)
  | 0 => nexts
  | i + 1 =>
    let nexts' := insertLinkLoop nexts prevs x i
    fun n l => if n = prevs i ∧ l = i then PtrVal.node x else nexts' n l

/-- **C1** (invariants).  Contrary to the claim, the insert protocol never
initializes the new node's own forward pointers: after the linking loop of
`Insert` runs over a fresh node `x` (all of whose forward-pointer slots are
uninitialized arena memory, and which is not among the predecessors), the
node has been published — the level-0 predecessor's forward pointer is a
release-store of `x` — while every forward pointer of `x` itself is still
uninitialized.  A reader that observes the new node therefore sees a
partially constructed node. -/
theorem insertLinkLoop_publishes (nexts : Nat → Nat → PtrVal)
    (prevs : Nat → Nat) (x : Nat) :
    ∀ height, 0 < height →
      insertLinkLoop nexts prevs x height (prevs 0) 0 = PtrVal.node x := by
  intro height
  induction height with
  | zero => intro h; omega
  | succ k ih =>
    intro _
    by_cases hk : k = 0
    · subst hk
      simp [insertLinkLoop]
    · simp only [insertLinkLoop]
      rw [if_neg (by rintro ⟨h1, h2⟩; omega)]
      exact ih (by omega)

theorem insertLinkLoop_fresh_untouched (nexts : Nat → Nat → PtrVal)
    (prevs : Nat → Nat) (x : Nat) (hfresh : ∀ i, prevs i ≠ x) :
    ∀ height i, insertLinkLoop nexts prevs x height x i = nexts x i := by
  intro height
  induction height with
  | zero => intro i; rfl
  | succ k ih =>
    intro i
    simp only [insertLinkLoop]
    rw [if_neg (by rintro ⟨h1, h2⟩; exact hfresh k h1.symm)]
    exact ih i

/-- **C1** (invariants).  Contrary to the claim, the insert protocol never
initializes the new node's own forward pointers: after the linking loop of
`Insert` runs over a fresh node `x` (all of whose forward-pointer slots are
uninitialized arena memory, and which is not among the predecessors), the
node has been published — the level-0 predecessor's forward pointer is a
release-store of `x` — while every forward pointer of `x` itself is still
uninitialized.  A reader that observes the new node therefore sees a
partially constructed node. -/
theorem insert_publishes_node_with_uninitialized_forwards
    (nexts : Nat → Nat → PtrVal) (prevs : Nat → Nat) (x height : Nat)
    (hfresh : ∀ i, prevs i ≠ x) (huninit : ∀ i, nexts x i = PtrVal.uninit)
    (hpos : 0 < height) :
    insertLinkLoop nexts prevs x height (prevs 0) 0 = PtrVal.node x ∧
    ∀ i, insertLinkLoop nexts prevs x height x i = PtrVal.uninit := by
  refine ⟨insertLinkLoop_publishes nexts prevs x height hpos, fun i => ?_⟩
  rw [insertLinkLoop_fresh_untouched nexts prevs x hfresh height i]
  exact huninit i

/-- Witness for `insert_publishes_node_with_uninitialized_forwards`:
head node 0 (null forward pointers), fresh node 1, height 1. -/
theorem insert_publishes_uninitialized_witness :
    insertLinkLoop (fun n _ => if n = 0 then PtrVal.null else PtrVal.uninit)
        (fun _ => 0) 1 1 0 0 = PtrVal.node 1 ∧
    insertLinkLoop (fun n _ => if n = 0 then PtrVal.null else PtrVal.uninit)
        (fun _ => 0) 1 1 1 0 = PtrVal.uninit := by
  have h := insert_publishes_node_with_uninitialized_forwards
    (fun n _ => if n = 0 then PtrVal.null else PtrVal.uninit)
    (fun _ => 0) 1 1 (fun i => by simp) (fun i => by simp) (by decide)
  exact ⟨h.1, h.2 0⟩

/-! ### Single-threaded interpreter for Insert/Contains -/

/-- Errors observable while running the skip list code: reading a forward
pointer that was never stored to (uninitialized arena memory = undefined
behaviour in the C++), or exhausting the interpreter's step budget. -/
inductive SLErr where
  | uninitRead
  | outOfFuel
deriving DecidableEq

/-- Whole-structure state: per-node keys and heights, the forward-pointer
heap, the node count (node 0 is the head sentinel), `max_height_`, the
cached `prev_` array, and the position in the random-draw stream. -/
structure SkipListState where
  keys : Nat → Int
  heights : Nat → Nat
  nexts : Nat → Nat → PtrVal
  numNodes : Nat
  maxHeight : Nat
  prevs : Nat → Nat
  rndIdx : Nat

/-- `Node::Next`/`NoBarrier_Next`: load a forward pointer; faults on
uninitialized memory. -/
def readNext (s : SkipListState) (n lvl : Nat) : Except SLErr (Option Nat) :=
  match s.nexts n lvl with
  | PtrVal.uninit => Except.error SLErr.uninitRead
  | PtrVal.null => Except.ok none
  | PtrVal.node m => Except.ok (some m)

/-- `KeyIsAfterNode(key, n)`: `(n != nullptr) && (compare_(n->key, key) < 0)`. -/
def keyIsAfterNode (s : SkipListState) (key : Int) : Option Nat → Bool
  | none => false
  | some m => decide (s.keys m < key)

/-- The descending search loop of `FindGreatOrEqual`, with explicit fuel;
`usePrev` says whether a `prev` array was supplied (`prev != nullptr`). -/
def fgeLoop (s : SkipListState) (key : Int) (usePrev : Bool) :
    Nat → Nat → (Nat → Nat) → Nat → Except SLErr (Option Nat × (Nat → Nat))
  | _, _, _, 0 => Except.error SLErr.outOfFuel
  | x, level, prevAcc, fuel + 1 =>
    match readNext s x level with
    | Except.error e => Except.error e
    | Except.ok next =>
      if keyIsAfterNode s key next then
        fgeLoop s key usePrev (next.getD 0) level prevAcc fuel
      else
        let prevAcc' := fun i =>
          if usePrev = true ∧ i = level then x else prevAcc i
        if level = 0 then Except.ok (next, prevAcc')
        else fgeLoop s key usePrev x (level - 1) prevAcc' fuel

/-- `SkipList::FindGreatOrEqual` with its sequential-insert fast path. -/
def findGreatOrEqual (s : SkipListState) (key : Int) (usePrev : Bool)
    (fuel : Nat) : Except SLErr (Option Nat × (Nat → Nat)) :=
  if usePrev then
    match readNext s (s.prevs 0) 0 with
    | Except.error e => Except.error e
    | Except.ok next0 =>
      if ¬ keyIsAfterNode s key next0 then
        match readNext s (s.prevs 0) 0 with
        | Except.error e => Except.error e
        | Except.ok next =>
          if s.prevs 0 = 0 then Except.ok (next, s.prevs)
          else if keyIsAfterNode s key (some (s.prevs 0)) then
            Except.ok (next, s.prevs)
          else fgeLoop s key usePrev 0 (s.maxHeight - 1) s.prevs fuel
      else fgeLoop s key usePrev 0 (s.maxHeight - 1) s.prevs fuel
  else fgeLoop s key usePrev 0 (s.maxHeight - 1) s.prevs fuel

/-- `SkipList::Contains`. -/
def Contains (s : SkipListState) (key : Int) (fuel : Nat) :
    Except SLErr Bool :=
  match findGreatOrEqual s key false fuel with
  | Except.error e => Except.error e
  | Except.ok (x, _) =>
    match x with
    | some m => Except.ok (decide (s.keys m = key))
    | none => Except.ok false

/-- `SkipList::NewNode`: placement-new constructs only the key (and records
the height of the allocation); the `next_` array is raw arena memory and
stays uninitialized. -/
def NewNode (s : SkipListState) (key : Int) (height : Nat) :
    SkipListState × Nat :=
  let id := s.numNodes
  ({ s with keys := fun n => if n = id then key else s.keys n,
            heights := fun n => if n = id then height else s.heights n,
            numNodes := id + 1 }, id)

/-- The per-level linking loop of `Insert`, error-aware: each iteration
performs the relaxed load `prev_[i]->NoBarrier_Next(i)` (result discarded —
the source never stores it into the new node) and then the release store
`prev_[i]->SetNext(i, x)`. -/
def insertLevelLoop (x : Nat) : SkipListState → Nat → Nat →
    Except SLErr SkipListState
  | s, _, 0 => Except.ok s
  | s, i, remaining + 1 =>
    match readNext s (s.prevs i) i with
    | Except.error e => Except.error e
    | Except.ok _ =>
      insertLevelLoop x
        { s with nexts := fun n l =>
            if n = s.prevs i ∧ l = i then PtrVal.node x else s.nexts n l }
        (i + 1) remaining

/-- `SkipList::Insert`: search with the cached `prev_`, pick a random
height, grow `max_height_` if needed (new levels' predecessors become the
head), allocate the node, link each level, and cache the new node as
`prev_[0]`. -/
def Insert (s : SkipListState) (key : Int) (draws : Nat → Nat)
    (fuel : Nat) : Except SLErr SkipListState :=
  match findGreatOrEqual s key true fuel with
  | Except.error e => Except.error e
  | Except.ok (_, prevAcc) =>
    let s1 := { s with prevs := prevAcc }
    let height := randomHeightGo draws s1.rndIdx 1 (kMaxHeight - 1)
    let s2 := { s1 with rndIdx := s1.rndIdx + (height - 1) +
      (if height < kMaxHeight then 1 else 0) }
    let grown : Nat → Nat := fun i =>
      if s2.maxHeight ≤ i ∧ i < height then 0 else s2.prevs i
    let s3 := if s2.maxHeight < height then
        { s2 with prevs := grown, maxHeight := height }
      else s2
    let p := NewNode s3 key height
    match insertLevelLoop p.2 p.1 0 height with
    | Except.error e => Except.error e
    | Except.ok s4 =>
      Except.ok { s4 with prevs := fun i => if i = 0 then p.2 else s4.prevs i }

/-- The `SkipList` constructor: head node 0 of height 12 with null forward
pointers, `max_height_ = 1`, all `prev_` entries at the head. -/
def skipListInit : SkipListState :=
  { keys := fun _ => 0,
    heights := fun n => if n = 0 then kMaxHeight else 0,
    nexts := fun n l =>
      if n = 0 ∧ l < kMaxHeight then PtrVal.null else PtrVal.uninit,
    numNodes := 1, maxHeight := 1, prevs := fun _ => 0, rndIdx := 0 }

/-- Insert key 1 into the fresh list (draw stream constantly 4, so the
random height is 1), then ask `Contains 2`. -/
def insertThenContains : Except SLErr Bool :=
  match Insert skipListInit 1 (fun _ => 4) 64 with
  | Except.error e => Except.error e
  | Except.ok s => Contains s 2 64

/-- **C2** (functional_correctness).  Contrary to the claim, after the
single-threaded insert of key 1, `Contains 2` does not return `false`: the
search steps to the new node and loads its level-0 forward pointer, which
`Insert` never initialized (see C1), i.e. the C++ reads uninitialized arena
memory — undefined behaviour instead of the claimed membership answer. -/
theorem contains_reads_uninitialized_after_insert :
    insertThenContains = Except.error SLErr.uninitRead := by rfl

/-! ## Bit-packed integers (coding.cpp, BitStreamPutInt / BitStreamGetInt) -/

/-- The `while (bits > 0)` loop of `BitStreamPutInt(char*, ...)` — one byte
(or partial byte) per iteration, with `bitsToGet = min bits (8 - bitOffset)`
and `mask = (1 << bitsToGet) - 1`; the stored byte is
`(old & ~(mask << bitOffset)) + ((value & mask) << bitOffset)`, read and
written through `unsigned char` (hence `% 256`, and `~` within a byte is
`255 ^^^ ·`).  `bitOffset` is written as `bitOffset % 8` to make
termination structural; every call site passes `bitOffset < 8` (first
iteration `offset % 8`, afterwards 0), where `% 8` is the identity. -/
def bitStreamPutLoop (buf : List Nat) (byteOffset bitOffset bits value : Nat) :
    List Nat :=
  if h : bits = 0 then buf
  else
    bitStreamPutLoop
      (buf.set byteOffset
        (((buf.getD byteOffset 0 % 256 &&&
            (255 ^^^ (2 ^ min bits (8 - bitOffset % 8) - 1) <<< (bitOffset % 8))) +
          (value &&& (2 ^ min bits (8 - bitOffset % 8) - 1)) <<< (bitOffset % 8)) % 256))
      (byteOffset + 1) 0 (bits - min bits (8 - bitOffset % 8))
      (value >>> min bits (8 - bitOffset % 8))
termination_by bits
decreasing_by
  have h8 : bitOffset % 8 < 8 := Nat.mod_lt _ (by norm_num)
  omega

/-- The `while (bits > 0)` loop of `BitStreamGetInt(const char*, ...)`:
`result += (uint64)((ptr[byteOffset] >> bitOffset) & mask) << shift`,
accumulating in a `uint64_t`. -/
def bitStreamGetLoop (buf : List Nat)
    (byteOffset bitOffset bits shift result : Nat) : Nat :=
  if h : bits = 0 then result
  else
    bitStreamGetLoop buf (byteOffset + 1) 0 (bits - min bits (8 - bitOffset % 8))
      (shift + min bits (8 - bitOffset % 8))
      ((result +
        ((buf.getD byteOffset 0 % 256) >>> (bitOffset % 8) &&&
          (2 ^ min bits (8 - bitOffset % 8) - 1)) <<< shift % 2 ^ 64) % 2 ^ 64)
termination_by bits
decreasing_by
  have h8 : bitOffset % 8 < 8 := Nat.mod_lt _ (by norm_num)
  omega

/-- `BitStreamPutInt(char* dst, dstlen, offset, bits, value)`. -/
def BitStreamPutInt (buf : List Nat) (offset bits value : Nat) : List Nat :=
  bitStreamPutLoop buf (offset / 8) (offset % 8) bits value

/-- `BitStreamGetInt(const char* src, srclen, offset, bits)`. -/
def BitStreamGetInt (buf : List Nat) (offset bits : Nat) : Nat :=
  bitStreamGetLoop buf (offset / 8) (offset % 8) bits 0 0

/-- Bit `j` of a byte buffer, LSB-first within each byte — the addressing
scheme documented for the bit stream ("bits are numbered from 0 to 7 in the
first byte, 8 to 15 in the second and so on"). -/
def bitAt (buf : List Nat) (j : Nat) : Nat :=
  buf.getD (j / 8) 0 / 2 ^ (j % 8) % 2

/-! ### Arithmetic helpers for the bit stream -/

/-- Two-digit bound: `x + y * 2 ^ a < 2 ^ (a + b)`. -/
theorem add_mul_pow_lt {x y a b : Nat} (hx : x < 2 ^ a) (hy : y < 2 ^ b) :
    x + y * 2 ^ a < 2 ^ (a + b) := by
  have h1 : x + y * 2 ^ a + 1 ≤ 2 ^ a + y * 2 ^ a := by omega
  have h2 : 2 ^ a + y * 2 ^ a = (y + 1) * 2 ^ a := by ring
  have h3 : (y + 1) * 2 ^ a ≤ 2 ^ b * 2 ^ a := Nat.mul_le_mul_right _ (by omega)
  have h4 : (2 : Nat) ^ b * 2 ^ a = 2 ^ (a + b) := by rw [← pow_add]; ring_nf
  omega

/-- Clearing a bit field inside a byte, arithmetically: for `old < 256` and a
field of `t` bits at offset `b` (`b + t ≤ 8`),
`old &&& (255 ^^^ (2^t - 1) <<< b)` keeps the low `b` bits and the bits from
`b + t` up. -/
theorem maskClear {old b t : Nat} (hold : old < 256) (hb : b < 8)
    (hbt : b + t ≤ 8) :
    old &&& (255 ^^^ (2 ^ t - 1) <<< b) =
      old % 2 ^ b + 2 ^ (b + t) * (old / 2 ^ (b + t)) := by
  have hmod : old % 2 ^ b < 2 ^ (b + t) :=
    lt_of_lt_of_le (Nat.mod_lt _ (Nat.two_pow_pos b))
      (Nat.pow_le_pow_right (by norm_num) (by omega))
  rw [Nat.add_comm (old % 2 ^ b)]
  apply Nat.eq_of_testBit_eq
  intro j
  rw [Nat.testBit_and, Nat.testBit_xor, Nat.testBit_shiftLeft,
    Nat.testBit_mul_pow_two_add _ hmod,
    show (255 : Nat) = 2 ^ 8 - 1 from by norm_num,
    Nat.testBit_two_pow_sub_one, Nat.testBit_two_pow_sub_one]
  rcases Nat.lt_trichotomy j b with hj | hj | hj
  · have hjb : (old % 2 ^ b).testBit j = old.testBit j := by
      rw [Nat.testBit_mod_two_pow]
      simp [hj]
    simp [hjb, show ¬ b ≤ j from by omega, show j < 8 from by omega,
      show j < b + t from by omega]
  · subst hj
    have hjb : (old % 2 ^ j).testBit j = false := by
      rw [Nat.testBit_mod_two_pow]
      simp
    by_cases hjt : j < j + t
    · simp [hjb, show j < 8 from hb, show 0 < t from by omega, hjt]
    · have ht0 : t = 0 := by omega
      subst ht0
      simp [hjb, show j < 8 from hb]
      exact Nat.testBit_to_div_mod
  · by_cases hjt : j < b + t
    · have hjb : (old % 2 ^ b).testBit j = false := by
        rw [Nat.testBit_mod_two_pow]
        simp [show ¬ j < b from by omega]
      simp [hjb, hjt, show b ≤ j from by omega, show j - b < t from by omega,
        show j < 8 from by omega]
    · have hdiv : (old / 2 ^ (b + t)).testBit (j - (b + t)) = old.testBit j := by
        rw [← Nat.shiftRight_eq_div_pow, Nat.testBit_shiftRight,
          show b + t + (j - (b + t)) = j from by omega]
      rw [hdiv, if_neg hjt]
      by_cases hj8 : j < 8
      · simp [hj8, show b ≤ j from by omega, show ¬ j - b < t from by omega]
      · have hfalse : old.testBit j = false :=
          Nat.testBit_lt_two_pow (lt_of_lt_of_le hold
            (by
              have : (256 : Nat) = 2 ^ 8 := by norm_num
              rw [this]
              exact Nat.pow_le_pow_right (by norm_num) (by omega)))
        simp [hfalse, hj8, show b ≤ j from by omega,
          show ¬ j - b < t from by omega]

/-- `x / 2 ^ k % 2` is the `k`-th bit. -/
theorem div_pow_mod_two (x k : Nat) : x / 2 ^ k % 2 = (x.testBit k).toNat := by
  rw [Nat.testBit_to_div_mod]
  rcases Nat.mod_two_eq_zero_or_one (x / 2 ^ k) with h | h <;> simp [h]

/-- Digit extraction from a three-part base-2 decomposition
`L + M * 2 ^ b + 2 ^ (b + t) * Hv` with `L < 2 ^ b`, `M < 2 ^ t`. -/
theorem threePart_div_mod {L M Hv b t : Nat} (k : Nat) (hL : L < 2 ^ b)
    (hM : M < 2 ^ t) :
    (L + M * 2 ^ b + 2 ^ (b + t) * Hv) / 2 ^ k % 2 =
      if k < b then L / 2 ^ k % 2
      else if k < b + t then M / 2 ^ (k - b) % 2
      else Hv / 2 ^ (k - b - t) % 2 := by
  have hsum : L + M * 2 ^ b + 2 ^ (b + t) * Hv =
      2 ^ (b + t) * Hv + (2 ^ b * M + L) := by ring
  have hin : 2 ^ b * M + L < 2 ^ (b + t) := by
    have h1 := add_mul_pow_lt hL hM
    rw [Nat.mul_comm] at h1
    omega
  rw [hsum, div_pow_mod_two, Nat.testBit_mul_pow_two_add _ hin]
  by_cases h1 : k < b + t
  · rw [if_pos h1, Nat.testBit_mul_pow_two_add _ hL]
    by_cases h2 : k < b
    · rw [if_pos h2, if_pos h2, div_pow_mod_two]
    · rw [if_neg h2, if_neg h2, if_pos h1, div_pow_mod_two]
  · rw [if_neg h1, if_neg (show ¬ k < b from by omega), if_neg h1,
      div_pow_mod_two, show k - b - t = k - (b + t) from by omega]

/-- `getD` after `set` at a different index. -/
theorem getD_set_ne {l : List Nat} {i j : Nat} (h : i ≠ j) (a : Nat) :
    (l.set i a).getD j 0 = l.getD j 0 := by
  simp [List.getD_eq_getElem?_getD, List.getElem?_set_ne h]

/-- `getD` after `set` at the same (in-range) index. -/
theorem getD_set_self {l : List Nat} {i : Nat} (h : i < l.length) (a : Nat) :
    (l.set i a).getD i 0 = a := by
  simp [List.getD_eq_getElem?_getD, List.getElem?_set_self h]

/-- The put loop does not change the buffer length. -/
theorem bitStreamPutLoop_length :
    ∀ (bits : Nat) (buf : List Nat) (bo b value : Nat),
      (bitStreamPutLoop buf bo b bits value).length = buf.length := by
  intro bits
  induction bits using Nat.strong_induction_on with
  | _ bits ih =>
    intro buf bo b value
    by_cases h0 : bits = 0
    · rw [bitStreamPutLoop, dif_pos h0]
    · rw [bitStreamPutLoop, dif_neg h0]
      have h8 : b % 8 < 8 := Nat.mod_lt _ (by norm_num)
      rw [ih _ (by omega), List.length_set]

/-- The put loop never touches bytes before `byteOffset`. -/
theorem bitStreamPutLoop_getD_lt :
    ∀ (bits : Nat) (buf : List Nat) (bo b value idx : Nat), idx < bo →
      (bitStreamPutLoop buf bo b bits value).getD idx 0 = buf.getD idx 0 := by
  intro bits
  induction bits using Nat.strong_induction_on with
  | _ bits ih =>
    intro buf bo b value idx hidx
    by_cases h0 : bits = 0
    · rw [bitStreamPutLoop, dif_pos h0]
    · rw [bitStreamPutLoop, dif_neg h0]
      have h8 : b % 8 < 8 := Nat.mod_lt _ (by norm_num)
      rw [ih _ (by omega) _ _ _ _ _ (by omega),
        getD_set_ne (show bo ≠ idx from by omega)]

/-- Get-after-put from a general loop state (entry bit offset `b < 8`,
accumulator `result` holding `shift` already-read bits): reading back the
just-written field yields the low `bits` of `value` accumulated at `shift`. -/
theorem bitStream_get_put :
    ∀ (bits : Nat) (buf : List Nat) (bo b value shift result : Nat),
      b < 8 →
      bo * 8 + b + bits ≤ 8 * buf.length →
      shift + bits ≤ 64 →
      result < 2 ^ shift →
      bitStreamGetLoop (bitStreamPutLoop buf bo b bits value) bo b bits
          shift result =
        result + value % 2 ^ bits * 2 ^ shift := by
  intro bits
  induction bits using Nat.strong_induction_on with
  | _ bits ih =>
    intro buf bo b value shift result hb hcap hshift hres
    by_cases h0 : bits = 0
    · subst h0
      rw [bitStreamPutLoop, dif_pos rfl, bitStreamGetLoop, dif_pos rfl]
      simp [Nat.mod_one]
    · have hbmod : b % 8 = b := Nat.mod_eq_of_lt hb
      have hblen : bo < buf.length := by omega
      rw [bitStreamPutLoop, dif_neg h0, bitStreamGetLoop, dif_neg h0]
      simp only [hbmod]
      set t := min bits (8 - b) with ht
      have ht1 : 1 ≤ t := by omega
      have htbits : t ≤ bits := by omega
      have htb : b + t ≤ 8 := by omega
      have hold : buf.getD bo 0 % 256 < 256 := Nat.mod_lt _ (by norm_num)
      set NB := ((buf.getD bo 0 % 256 &&& (255 ^^^ (2 ^ t - 1) <<< b)) +
        (value &&& (2 ^ t - 1)) <<< b) % 256 with hNBdef
      have hL : buf.getD bo 0 % 256 % 2 ^ b < 2 ^ b :=
        Nat.mod_lt _ (Nat.two_pow_pos b)
      have hM : value % 2 ^ t < 2 ^ t := Nat.mod_lt _ (Nat.two_pow_pos t)
      have hq : buf.getD bo 0 % 256 / 2 ^ (b + t) < 2 ^ (8 - (b + t)) := by
        rw [Nat.div_lt_iff_lt_mul (Nat.two_pow_pos _)]
        have hpow : (2 : Nat) ^ (8 - (b + t)) * 2 ^ (b + t) = 2 ^ 8 := by
          rw [← pow_add]
          congr 1
          omega
        rw [hpow]
        omega
      have hNBinner : (buf.getD bo 0 % 256 &&& (255 ^^^ (2 ^ t - 1) <<< b)) +
          (value &&& (2 ^ t - 1)) <<< b =
          buf.getD bo 0 % 256 % 2 ^ b + value % 2 ^ t * 2 ^ b +
            2 ^ (b + t) * (buf.getD bo 0 % 256 / 2 ^ (b + t)) := by
        rw [maskClear hold hb htb, Nat.and_pow_two_sub_one_eq_mod,
          Nat.shiftLeft_eq]
        ring
      have hNBlt : buf.getD bo 0 % 256 % 2 ^ b + value % 2 ^ t * 2 ^ b +
          2 ^ (b + t) * (buf.getD bo 0 % 256 / 2 ^ (b + t)) < 256 := by
        have h1 := add_mul_pow_lt hL hM
        have h2 := add_mul_pow_lt h1 hq
        rw [show b + t + (8 - (b + t)) = 8 from by omega,
          show (2 : Nat) ^ 8 = 256 from by norm_num] at h2
        rw [Nat.mul_comm (2 ^ (b + t))]
        omega
      have hNBval : NB = buf.getD bo 0 % 256 % 2 ^ b +
          value % 2 ^ t * 2 ^ b +
          2 ^ (b + t) * (buf.getD bo 0 % 256 / 2 ^ (b + t)) := by
        rw [hNBdef, hNBinner]
        exact Nat.mod_eq_of_lt (by omega)
      have hread : (bitStreamPutLoop (buf.set bo NB) (bo + 1) 0 (bits - t)
          (value >>> t)).getD bo 0 = NB := by
        rw [bitStreamPutLoop_getD_lt _ _ _ _ _ _ (Nat.lt_succ_self bo),
          getD_set_self hblen]
      rw [hread]
      have hNBsmall : NB < 256 := by
        rw [hNBval]
        omega
      have hchunk : (NB % 256) >>> b &&& (2 ^ t - 1) = value % 2 ^ t := by
        rw [Nat.mod_eq_of_lt hNBsmall, hNBval]
        rw [Nat.shiftRight_eq_div_pow, Nat.and_pow_two_sub_one_eq_mod]
        rw [show buf.getD bo 0 % 256 % 2 ^ b + value % 2 ^ t * 2 ^ b +
            2 ^ (b + t) * (buf.getD bo 0 % 256 / 2 ^ (b + t)) =
            buf.getD bo 0 % 256 % 2 ^ b + 2 ^ b *
              (value % 2 ^ t + 2 ^ t * (buf.getD bo 0 % 256 / 2 ^ (b + t)))
          from by rw [pow_add]; ring]
        rw [Nat.add_mul_div_left _ _ (Nat.two_pow_pos b),
          Nat.div_eq_of_lt hL, Nat.zero_add, Nat.add_mul_mod_self_left,
          Nat.mod_eq_of_lt hM]
      rw [hchunk]
      have hresacc : (result + (value % 2 ^ t) <<< shift % 2 ^ 64) % 2 ^ 64 =
          result + value % 2 ^ t * 2 ^ shift := by
        have hsum : result + value % 2 ^ t * 2 ^ shift < 2 ^ (shift + t) :=
          add_mul_pow_lt hres hM
        have hle : (2 : Nat) ^ (shift + t) ≤ 2 ^ 64 :=
          Nat.pow_le_pow_right (by norm_num) (by omega)
        rw [Nat.shiftLeft_eq, Nat.mod_eq_of_lt (by omega),
          Nat.mod_eq_of_lt (by omega)]
      rw [hresacc]
      rw [ih (bits - t) (by omega) (buf.set bo NB) (bo + 1) 0 (value >>> t)
        (shift + t) _ (by norm_num)
        (by rw [List.length_set]; omega)
        (by omega)
        (add_mul_pow_lt hres hM)]
      rw [Nat.shiftRight_eq_div_pow]
      have hsplit : value % 2 ^ bits =
          value % 2 ^ t + 2 ^ t * (value / 2 ^ t % 2 ^ (bits - t)) := by
        have h2 : (2 : Nat) ^ bits = 2 ^ t * 2 ^ (bits - t) := by
          rw [← pow_add]
          congr 1
          omega
        rw [h2, Nat.mod_mul]
      rw [hsplit, pow_add]
      ring

/-- The written byte, decomposed arithmetically into preserved low bits, the
value chunk, and preserved high bits. -/
theorem newByte_decomp (oldRaw value b t : Nat) (hb : b < 8)
    (htb : b + t ≤ 8) :
    ((oldRaw % 256 &&& (255 ^^^ (2 ^ t - 1) <<< b)) +
        (value &&& (2 ^ t - 1)) <<< b) % 256 =
      oldRaw % 256 % 2 ^ b + value % 2 ^ t * 2 ^ b +
        2 ^ (b + t) * (oldRaw % 256 / 2 ^ (b + t)) := by
  have hold : oldRaw % 256 < 256 := Nat.mod_lt _ (by norm_num)
  have hL : oldRaw % 256 % 2 ^ b < 2 ^ b := Nat.mod_lt _ (Nat.two_pow_pos b)
  have hM : value % 2 ^ t < 2 ^ t := Nat.mod_lt _ (Nat.two_pow_pos t)
  have hq : oldRaw % 256 / 2 ^ (b + t) < 2 ^ (8 - (b + t)) := by
    rw [Nat.div_lt_iff_lt_mul (Nat.two_pow_pos _)]
    have hpow : (2 : Nat) ^ (8 - (b + t)) * 2 ^ (b + t) = 2 ^ 8 := by
      rw [← pow_add]
      congr 1
      omega
    rw [hpow]
    omega
  have hinner : (oldRaw % 256 &&& (255 ^^^ (2 ^ t - 1) <<< b)) +
      (value &&& (2 ^ t - 1)) <<< b =
      oldRaw % 256 % 2 ^ b + value % 2 ^ t * 2 ^ b +
        2 ^ (b + t) * (oldRaw % 256 / 2 ^ (b + t)) := by
    rw [maskClear hold hb htb, Nat.and_pow_two_sub_one_eq_mod,
      Nat.shiftLeft_eq]
    ring
  rw [hinner]
  apply Nat.mod_eq_of_lt
  have h1 := add_mul_pow_lt hL hM
  have h2 := add_mul_pow_lt h1 hq
  rw [show b + t + (8 - (b + t)) = 8 from by omega,
    show (2 : Nat) ^ 8 = 256 from by norm_num] at h2
  rw [Nat.mul_comm (2 ^ (b + t))]
  omega

/-- A bit of the written byte outside the `[b, b + t)` field equals the
corresponding bit of the original byte. -/
theorem newByte_bit_outside (oldRaw value b t k : Nat) (hb : b < 8)
    (htb : b + t ≤ 8) (hk : k < 8) (hout : k < b ∨ b + t ≤ k) :
    (oldRaw % 256 % 2 ^ b + value % 2 ^ t * 2 ^ b +
        2 ^ (b + t) * (oldRaw % 256 / 2 ^ (b + t))) / 2 ^ k % 2 =
      oldRaw / 2 ^ k % 2 := by
  have hL : oldRaw % 256 % 2 ^ b < 2 ^ b := Nat.mod_lt _ (Nat.two_pow_pos b)
  have hM : value % 2 ^ t < 2 ^ t := Nat.mod_lt _ (Nat.two_pow_pos t)
  rw [threePart_div_mod k hL hM]
  rcases hout with hklt | hkge
  · rw [if_pos hklt]
    have hdvd : oldRaw % 256 % 2 ^ b = oldRaw % 2 ^ b := by
      rw [show (256 : Nat) = 2 ^ 8 from by norm_num]
      exact Nat.mod_mod_of_dvd _ (pow_dvd_pow 2 (by omega))
    rw [hdvd, show (2 : Nat) ^ b = 2 ^ k * 2 ^ (b - k) from by
        rw [← pow_add]; congr 1; omega,
      Nat.mod_mul_right_div_self]
    exact Nat.mod_mod_of_dvd _ (dvd_pow_self 2 (by omega))
  · rw [if_neg (by omega), if_neg (by omega)]
    have h1 : oldRaw % 256 / 2 ^ (b + t) / 2 ^ (k - b - t) =
        oldRaw % 256 / 2 ^ k := by
      rw [Nat.div_div_eq_div_mul, ← pow_add,
        show b + t + (k - b - t) = k from by omega]
    rw [h1, show (256 : Nat) = 2 ^ 8 from by norm_num,
      show (2 : Nat) ^ 8 = 2 ^ k * 2 ^ (8 - k) from by
        rw [← pow_add]; congr 1; omega,
      Nat.mod_mul_right_div_self]
    exact Nat.mod_mod_of_dvd _ (dvd_pow_self 2 (by omega))

/-- The put loop leaves every bit outside `[bo * 8 + b, bo * 8 + b + bits)`
unchanged. -/
theorem bitStreamPutLoop_preserves :
    ∀ (bits : Nat) (buf : List Nat) (bo b value j : Nat),
      b < 8 →
      bo * 8 + b + bits ≤ 8 * buf.length →
      (j < bo * 8 + b ∨ bo * 8 + b + bits ≤ j) →
      bitAt (bitStreamPutLoop buf bo b bits value) j = bitAt buf j := by
  intro bits
  induction bits using Nat.strong_induction_on with
  | _ bits ih =>
    intro buf bo b value j hb hcap hj
    by_cases h0 : bits = 0
    · rw [bitStreamPutLoop, dif_pos h0]
    · have hbmod : b % 8 = b := Nat.mod_eq_of_lt hb
      have hblen : bo < buf.length := by omega
      rw [bitStreamPutLoop, dif_neg h0]
      simp only [hbmod]
      set t := min bits (8 - b) with ht
      have ht1 : 1 ≤ t := by omega
      have htbits : t ≤ bits := by omega
      have htb : b + t ≤ 8 := by omega
      set NB := ((buf.getD bo 0 % 256 &&& (255 ^^^ (2 ^ t - 1) <<< b)) +
        (value &&& (2 ^ t - 1)) <<< b) % 256 with hNBdef
      rw [ih (bits - t) (by omega) (buf.set bo NB) (bo + 1) 0 (value >>> t) j
        (by norm_num) (by rw [List.length_set]; omega) (by omega)]
      simp only [bitAt]
      by_cases hjbo : j / 8 = bo
      · rw [hjbo, getD_set_self hblen, hNBdef,
          newByte_decomp _ _ _ _ hb htb]
        apply newByte_bit_outside _ _ _ _ _ hb htb
          (Nat.mod_lt _ (by norm_num))
        rcases hj with h | h
        · left
          omega
        · right
          omega
      · rw [getD_set_ne (show bo ≠ j / 8 from fun hc => hjbo hc.symm)]

/-- **C9** (algebraic_relational).  For every byte buffer, bit offset `o` and
width `w ≤ 64` satisfying the functions' stated preconditions, reading back
with `BitStreamGetInt` after `BitStreamPutInt(buf, o, w, v)` yields `v`
truncated to its `w` least-significant bits, and the put leaves every bit of
the buffer outside `[o, o + w)` exactly as it was. -/
theorem bitstream_put_get_exact (buf : List Nat) (offset bits value : Nat)
    (hbits : bits ≤ 64) (hval : value < 2 ^ 64)
    (hcap : (offset + bits + 7) / 8 ≤ buf.length) :
    BitStreamGetInt (BitStreamPutInt buf offset bits value) offset bits =
      value % 2 ^ bits ∧
    ∀ j < 8 * buf.length, (j < offset ∨ offset + bits ≤ j) →
      bitAt (BitStreamPutInt buf offset bits value) j = bitAt buf j := by
  have hb : offset % 8 < 8 := Nat.mod_lt _ (by norm_num)
  have hcap8 : offset + bits ≤ 8 * buf.length := by omega
  constructor
  · rw [BitStreamGetInt, BitStreamPutInt,
      bitStream_get_put bits buf (offset / 8) (offset % 8) value 0 0 hb
        (by omega) (by omega) (by norm_num)]
    simp
  · intro j hjlen hj
    rw [BitStreamPutInt]
    exact bitStreamPutLoop_preserves bits buf (offset / 8) (offset % 8)
      value j hb (by omega) (by omega)

/-- Witness for `bitstream_put_get_exact`: write 7 bits of 85 at bit offset 3
into the two-byte all-ones buffer. -/
theorem bitstream_put_get_exact_witness :
    BitStreamGetInt (BitStreamPutInt [255, 255] 3 7 85) 3 7 = 85 % 2 ^ 7 ∧
    bitAt (BitStreamPutInt [255, 255] 3 7 85) 0 = bitAt [255, 255] 0 :=
  ⟨(bitstream_put_get_exact [255, 255] 3 7 85 (by decide) (by decide)
      (by decide)).1,
   (bitstream_put_get_exact [255, 255] 3 7 85 (by decide) (by decide)
      (by decide)).2 0 (by decide) (by decide)⟩

/-! ## Mutation batch (WriteBatch) — modelled from the spec

Modelled from the spec: the `WriteBatch` implementation (`write_batch.cc`)
is not under src/ — only `include/leveldb/write_batch.h` is — so the record
format is taken from spec §4.6 and §6: `rep_` is a fixed-width 64-bit
sequence number, a fixed-width 32-bit record count, then records in append
order; each record is a one-byte operation tag (Put / Delete / Merge), a
varint32-length-prefixed key and, for Put and Merge, a
varint32-length-prefixed value.  The spec leaves the concrete tag byte
values open (§9 open question); the model fixes three distinct bytes. -/

/-- One batched mutation. -/
inductive BatchOp where
  | put (key value : List Nat)
  | del (key : List Nat)
  | merge (key value : List Nat)
deriving DecidableEq

/-- Tag byte for Put records (model choice, spec §9 leaves it open). -/
def kTypeValue : Nat := 1

/-- Tag byte for Delete records. -/
def kTypeDeletion : Nat := 0

/-- Tag byte for Merge records. -/
def kTypeMerge : Nat := 2

/-- The empty batch: header-only buffer (sequence 0, count 0). -/
def batchInitRep : List Nat := EncodeFixed64 0 ++ EncodeFixed32 0

/-- The record count stored in the header. -/
def batchCount (rep : List Nat) : Nat := DecodeFixed32 (rep.drop 8)

/-- Overwrite the count field (bytes 8..11) of the header. -/
def batchSetCount (rep : List Nat) (c : Nat) : List Nat :=
  rep.take 8 ++ EncodeFixed32 c ++ rep.drop 12

/-- Serialized bytes of one record: tag, length-prefixed key, and for
Put/Merge a length-prefixed value. -/
def encodeRecord : BatchOp → List Nat
  | .put k v => kTypeValue ::
      (PutLengthPrefixedSlice [] k ++ PutLengthPrefixedSlice [] v)
  | .del k => kTypeDeletion :: PutLengthPrefixedSlice [] k
  | .merge k v => kTypeMerge ::
      (PutLengthPrefixedSlice [] k ++ PutLengthPrefixedSlice [] v)

/-- `Put`/`Delete`/`Merge`: bump the header count and append the record. -/
def batchApply (rep : List Nat) (op : BatchOp) : List Nat :=
  batchSetCount rep (batchCount rep + 1) ++ encodeRecord op

/-- `Data()` of the batch built by the given call sequence on a fresh
batch. -/
def WriteBatchData (ops : List BatchOp) : List Nat :=
  ops.foldl batchApply batchInitRep

/-- Concatenated record bytes. -/
def recordsBytes : List BatchOp → List Nat
  | [] => []
  | op :: ops => encodeRecord op ++ recordsBytes ops

/-- The record parser driving `Iterate`'s replay: reads tagged records until
the buffer is exhausted; `fuel` only bounds the recursion (every record
consumes at least its tag byte, so the byte count suffices). -/
def parseRecords : Nat → List Nat → Option (List BatchOp)
  | _, [] => some []
  | 0, _ :: _ => none
  | fuel + 1, tag :: rest =>
    if tag = kTypeValue then
      match GetLengthPrefixedSlicePtr rest with
      | none => none
      | some (k, rest1) =>
        match GetLengthPrefixedSlicePtr rest1 with
        | none => none
        | some (v, rest2) =>
          match parseRecords fuel rest2 with
          | none => none
          | some ops => some (BatchOp.put k v :: ops)
    else if tag = kTypeDeletion then
      match GetLengthPrefixedSlicePtr rest with
      | none => none
      | some (k, rest1) =>
        match parseRecords fuel rest1 with
        | none => none
        | some ops => some (BatchOp.del k :: ops)
    else if tag = kTypeMerge then
      match GetLengthPrefixedSlicePtr rest with
      | none => none
      | some (k, rest1) =>
        match GetLengthPrefixedSlicePtr rest1 with
        | none => none
        | some (v, rest2) =>
          match parseRecords fuel rest2 with
          | none => none
          | some ops => some (BatchOp.merge k v :: ops)
    else none

/-- `Iterate(handler)`: check the header, replay every record in append
order, and require the replayed count to match the header count.  Returns
the visitor call sequence, or `none` on corruption. -/
def Iterate (rep : List Nat) : Option (List BatchOp) :=
  if rep.length < 12 then none
  else
    match parseRecords rep.length (rep.drop 12) with
    | none => none
    | some ops => if ops.length = batchCount rep then some ops else none

/-- Well-formedness of an operation: key/value sizes fit in a `uint32`
length prefix. -/
def opWF : BatchOp → Prop
  | .put k v => k.length < 2 ^ 32 ∧ v.length < 2 ^ 32
  | .del k => k.length < 2 ^ 32
  | .merge k v => k.length < 2 ^ 32 ∧ v.length < 2 ^ 32

instance : DecidablePred opWF := by
  intro op
  rcases op with ⟨k, v⟩ | k | ⟨k, v⟩ <;> simp only [opWF] <;> infer_instance

/-! ### Round-trip lemmas -/

/-- A varint32 encoding decodes in place (any suffix). -/
theorem getVarint32Ptr_encode {n : Nat} (hn : n < 2 ^ 32) (tail : List Nat) :
    GetVarint32Ptr (EncodeVarint32 n ++ tail) = some (n, VarintLength n) := by
  rw [getVarint32Ptr_eq_fallback, encodeVarint32_eq hn, GetVarint32PtrFallback,
    getVarint32Loop_encode n tail 0 0 0 ⟨0, rfl⟩ (by norm_num) (by norm_num)
      (by simpa using hn)]
  norm_num

/-- The 32-bit encoder writes `VarintLength` bytes (for 32-bit values). -/
theorem encodeVarint32_length {n : Nat} (hn : n < 2 ^ 32) :
    (EncodeVarint32 n).length = VarintLength n := by
  rw [encodeVarint32_eq hn, encodeVarint64_length]

/-- A length-prefixed slice decodes in place (any suffix). -/
theorem getLPS_encode {k : List Nat} (hk : k.length < 2 ^ 32)
    (tail : List Nat) :
    GetLengthPrefixedSlicePtr (PutLengthPrefixedSlice [] k ++ tail) =
      some (k, tail) := by
  rw [PutLengthPrefixedSlice, PutVarint32, List.nil_append, List.append_assoc,
    GetLengthPrefixedSlicePtr, getVarint32Ptr_encode hk]
  dsimp only
  rw [List.drop_left' (encodeVarint32_length hk)]
  rw [if_pos (by rw [List.length_append]; omega)]
  rw [List.take_left' rfl, List.drop_left' rfl]

/-- Parsing the serialized records of a well-formed operation list yields the
operations back, in order. -/
theorem parseRecords_records (ops : List BatchOp) :
    ∀ fuel, ops.length ≤ fuel → (∀ op ∈ ops, opWF op) →
      parseRecords fuel (recordsBytes ops) = some ops := by
  induction ops with
  | nil =>
    intro fuel _ _
    rw [recordsBytes]
    match fuel with
    | 0 => rfl
    | _ + 1 => rfl
  | cons op ops ih =>
    intro fuel hfuel hwf
    have hop : opWF op := hwf op (by simp)
    have hops : ∀ o ∈ ops, opWF o := fun o ho => hwf o (by simp [ho])
    cases fuel with
    | zero =>
      simp only [List.length_cons] at hfuel
      omega
    | succ f =>
      have hf : ops.length ≤ f := by
        simp only [List.length_cons] at hfuel
        omega
      rcases op with ⟨k, v⟩ | k | ⟨k, v⟩
      · rcases hop with ⟨hk, hv⟩
        rw [recordsBytes, encodeRecord, List.cons_append, parseRecords]
        rw [if_pos rfl]
        rw [List.append_assoc, getLPS_encode hk]
        dsimp only
        rw [getLPS_encode hv]
        dsimp only
        rw [ih f hf hops]
      · rw [recordsBytes, encodeRecord, List.cons_append, parseRecords]
        rw [if_neg (by norm_num [kTypeDeletion, kTypeValue]),
          if_pos rfl]
        rw [getLPS_encode hop]
        dsimp only
        rw [ih f hf hops]
      · rcases hop with ⟨hk, hv⟩
        rw [recordsBytes, encodeRecord, List.cons_append, parseRecords]
        rw [if_neg (by norm_num [kTypeMerge, kTypeValue]),
          if_neg (by norm_num [kTypeMerge, kTypeDeletion]),
          if_pos rfl]
        rw [List.append_assoc, getLPS_encode hk]
        dsimp only
        rw [getLPS_encode hv]
        dsimp only
        rw [ih f hf hops]

/-- `DecodeFixed32` inverts `EncodeFixed32` (any suffix). -/
theorem decodeFixed32_encode {c : Nat} (hc : c < 2 ^ 32) (tail : List Nat) :
    DecodeFixed32 (EncodeFixed32 c ++ tail) = c := by
  simp only [DecodeFixed32, EncodeFixed32, List.cons_append, List.nil_append,
    List.getD_cons_zero, List.getD_cons_succ]
  omega

/-- The header length is 12 bytes. -/
theorem header_length (s c : Nat) :
    (EncodeFixed64 s ++ EncodeFixed32 c).length = 12 := by
  simp [EncodeFixed64, EncodeFixed32]

/-- Reading the count of a well-formed buffer. -/
theorem batchCount_header (s c : Nat) (hc : c < 2 ^ 32) (body : List Nat) :
    batchCount (EncodeFixed64 s ++ (EncodeFixed32 c ++ body)) = c := by
  rw [batchCount,
    List.drop_left' (show (EncodeFixed64 s).length = 8 from by
      simp [EncodeFixed64]),
    decodeFixed32_encode hc]

/-- Overwriting the count of a well-formed buffer. -/
theorem batchSetCount_header (s c c' : Nat) (body : List Nat) :
    batchSetCount (EncodeFixed64 s ++ (EncodeFixed32 c ++ body)) c' =
      EncodeFixed64 s ++ (EncodeFixed32 c' ++ body) := by
  rw [batchSetCount,
    List.take_left' (show (EncodeFixed64 s).length = 8 from by
      simp [EncodeFixed64]),
    ← List.append_assoc,
    List.drop_left' (by rw [List.length_append]; simp [EncodeFixed64, EncodeFixed32]),
    List.append_assoc]

/-- Building a batch on top of a well-formed buffer appends the records and
counts them. -/
theorem writeBatchData_foldl (ops : List BatchOp) :
    ∀ (s c : Nat) (body : List Nat), c + ops.length < 2 ^ 32 →
      ops.foldl batchApply (EncodeFixed64 s ++ (EncodeFixed32 c ++ body)) =
        EncodeFixed64 s ++
          (EncodeFixed32 (c + ops.length) ++ (body ++ recordsBytes ops)) := by
  induction ops with
  | nil =>
    intro s c body _
    simp [recordsBytes]
  | cons op ops ih =>
    intro s c body hc
    rw [List.foldl_cons, batchApply,
      batchCount_header s c (by simp only [List.length_cons] at hc; omega),
      batchSetCount_header, List.append_assoc, List.append_assoc,
      ih s (c + 1) (body ++ encodeRecord op)
        (by simp only [List.length_cons] at hc; omega)]
    rw [show c + 1 + ops.length = c + (op :: ops).length from by
      simp [List.length_cons]; omega]
    rw [List.append_assoc, recordsBytes]

/-- Each record contributes at least one byte. -/
theorem recordsBytes_length_ge (ops : List BatchOp) :
    ops.length ≤ (recordsBytes ops).length := by
  induction ops with
  | nil => simp [recordsBytes]
  | cons op ops ih =>
    rw [recordsBytes, List.length_append, List.length_cons]
    rcases op with ⟨k, v⟩ | k | ⟨k, v⟩ <;>
      simp only [encodeRecord, List.length_cons] <;> omega

/-- **C10** (algebraic_relational).  For every batch built by a sequence of
Put/Delete/Merge calls (with sizes fitting the `uint32` length prefixes and
record count), constructing a batch from the buffer returned by `Data()`
and replaying it with `Iterate` visits exactly the same records in the
original append order. -/
theorem writeBatch_roundtrip (ops : List BatchOp)
    (hwf : ∀ op ∈ ops, opWF op) (hcount : ops.length < 2 ^ 32) :
    Iterate (WriteBatchData ops) = some ops := by
  have hstruct : WriteBatchData ops =
      EncodeFixed64 0 ++
        (EncodeFixed32 ops.length ++ ([] ++ recordsBytes ops)) := by
    rw [WriteBatchData, batchInitRep,
      show EncodeFixed64 0 ++ EncodeFixed32 0 =
        EncodeFixed64 0 ++ (EncodeFixed32 0 ++ []) from by simp,
      writeBatchData_foldl ops 0 0 [] (by omega)]
    norm_num
  rw [hstruct, List.nil_append, Iterate]
  have hlen : (EncodeFixed64 0 ++
      (EncodeFixed32 ops.length ++ recordsBytes ops)).length =
      12 + (recordsBytes ops).length := by
    simp [EncodeFixed64, EncodeFixed32]
    omega
  rw [if_neg (by omega)]
  rw [show (EncodeFixed64 0 ++
      (EncodeFixed32 ops.length ++ recordsBytes ops)).drop 12 =
      recordsBytes ops from by
    rw [← List.append_assoc]
    exact List.drop_left' (header_length 0 ops.length)]
  have hrec := recordsBytes_length_ge ops
  rw [parseRecords_records ops _ (by omega) hwf,
    batchCount_header 0 ops.length hcount]
  dsimp only
  rw [if_pos rfl]

/-- Witness for `writeBatch_roundtrip` on the spec's four-record example
batch shape. -/
theorem writeBatch_roundtrip_witness :
    Iterate (WriteBatchData
      [BatchOp.put [107] [118, 49], BatchOp.del [107],
       BatchOp.put [107] [118, 50], BatchOp.put [107] [118, 51]]) =
      some [BatchOp.put [107] [118, 49], BatchOp.del [107],
       BatchOp.put [107] [118, 50], BatchOp.put [107] [118, 51]] :=
  writeBatch_roundtrip _ (by decide) (by decide)

end RocksCopy
